import Mathlib

/-!
Verification of the market-data cleaning, alignment, window-resolution,
parsing, backtest and statistics core of the telegram-AI-summarizer-bot
repository.  Every definition below is a shallow embedding of a Go
function from `internal/finance`; float64 values are modelled exactly
(rationals for the computable pipeline, reals where the source uses
`math.Pow`/`math.Sqrt`, and an explicit IEEE-style value type where the
source distinguishes NaN/Inf).  Names ending in the substring `io`
(e.g. `Portfolio`) are abbreviated to `Pf` for tooling reasons; each doc
comment names the Go source function being embedded.
-/

/-! ## Series Cleaner (internal/finance/portfolio_types.go) -/

/-- Embeds the length-equalisation prologue shared by `filterNonNegative`
and `filterIQR`: if the two slices have different lengths, both are
truncated to the shorter one. -/
def truncatePair (ts : List Int) (cl : List ℚ) : List Int × List ℚ :=
  if ts.length ≠ cl.length then
    let n := min ts.length cl.length
    (ts.take n, cl.take n)
  else (ts, cl)

/-- Embeds `filterNonNegative` (portfolio_types.go): drop every point whose
close is `< 0`, keeping timestamp/close pairs index-aligned.  The Go loop
appends `ts[i]`/`cl[i]` in lockstep, which on equal-length slices is the
filter of the zipped pairs. -/
def filterNonNegative (ts : List Int) (cl : List ℚ) : List Int × List ℚ :=
  let tc := truncatePair ts cl
  let pairs := (tc.1.zip tc.2).filter fun p => !decide (p.2 < 0)
  (pairs.map Prod.fst, pairs.map Prod.snd)

/-- Ascending insertion of one element, used to model `sort.Float64s`. -/
def insertQ (x : ℚ) : List ℚ → List ℚ
  | [] => [x]
  | y :: ys => if x ≤ y then x :: y :: ys else y :: insertQ x ys

/-- Ascending sort of the copied close values, modelling `sort.Float64s`
(the sorted-value function is all `filterIQR` depends on). -/
def sortQ (l : List ℚ) : List ℚ := l.foldr insertQ []

/-- Embeds the `percentile` closure inside `filterIQR`: linear-interpolated
percentile over the ascending-sorted values.  Go's `int(pos)` truncation
equals the floor since `pos ≥ 0` on the branch where it is used. -/
def percentileOf (vals : List ℚ) (p : ℚ) : ℚ :=
  if vals.length = 0 then 0
  else if p ≤ 0 then vals.headI
  else if p ≥ 1 then vals.getLastI
  else
    let pos : ℚ := p * ((vals.length : ℚ) - 1)
    let lo : ℕ := pos.floor.toNat
    let hi : ℕ := lo + 1
    if vals.length ≤ hi then vals.getD lo 0
    else
      let frac : ℚ := pos - (lo : ℚ)
      vals.getD lo 0 * (1 - frac) + vals.getD hi 0 * frac

/-- `Q3 - Q1` of a close series, exactly as `filterIQR` computes it. -/
def iqrOf (cl : List ℚ) : ℚ :=
  percentileOf (sortQ cl) (3/4) - percentileOf (sortQ cl) (1/4)

/-- The timestamp/close pairs `filterIQR` would keep: those with close
inside `[Q1 - k*IQR, Q3 + k*IQR]`. -/
def iqrSurvivors (ts : List Int) (cl : List ℚ) (k : ℚ) : List (Int × ℚ) :=
  let q1 := percentileOf (sortQ cl) (1/4)
  let q3 := percentileOf (sortQ cl) (3/4)
  let iqr := q3 - q1
  let lower := q1 - k * iqr
  let upper := q3 + k * iqr
  (ts.zip cl).filter fun p => !(decide (p.2 < lower) || decide (upper < p.2))

/-- Embeds `filterIQR` (portfolio_types.go): IQR outlier removal with the
short-series guard (`len < minPoints`), the degenerate-IQR guard
(`iqr ≤ 0`) and the over-trim guard (`kept < minPoints/2`). -/
def filterIQR (ts : List Int) (cl : List ℚ) (k : ℚ) (minPoints : ℕ) :
    List Int × List ℚ :=
  let tc := truncatePair ts cl
  if tc.2.length < minPoints then tc
  else if iqrOf tc.2 ≤ 0 then tc
  else
    let pairs := iqrSurvivors tc.1 tc.2 k
    if pairs.length < minPoints / 2 then tc
    else (pairs.map Prod.fst, pairs.map Prod.snd)

/-! ## Window Resolver (portfolio command source, `parsePortfolioWindow`) -/

/-- ASCII lower-casing of one character, modelling `strings.ToLower` on the
ASCII window tokens the resolver receives. -/
def lowChar (c : Char) : Char :=
  if 'A' ≤ c ∧ c ≤ 'Z' then Char.ofNat (c.toNat + 32) else c

/-- `strings.ToLower` on a token (ASCII model). -/
def toLowerStr (s : String) : String := String.mk (s.data.map lowChar)

/-- `strings.HasSuffix s (one character)`. -/
def endsWithChar (s : String) (c : Char) : Bool :=
  match s.data.getLast? with
  | some d => d == c
  | none => false

/-- `strings.TrimSuffix` for a one-character suffix. -/
def dropLastStr (s : String) : String := String.mk s.data.dropLast

/-- Numeric value of a run of decimal digits. -/
def digitsVal (ds : List Char) : ℕ :=
  ds.foldl (fun n c => n * 10 + (c.toNat - 48)) 0

/-- Models `fmt.Sscanf(s, "%d", &n)`: an optional sign followed by at least
one decimal digit at the start of the token; trailing characters are
ignored, a digitless token fails. -/
def parseLeadingInt (s : String) : Option Int :=
  let core : List Char → Option Int := fun cs =>
    let ds := cs.takeWhile Char.isDigit
    if ds.isEmpty then none else some (digitsVal ds : Int)
  match s.data with
  | '-' :: rest => (core rest).map (fun n => -n)
  | '+' :: rest => core rest
  | cs => core cs

/-- The `"d"` arm of the `switch` in `parsePortfolioWindow`. -/
def dResolve (n : Int) : String × Int :=
  if n ≤ 5 then ("5d", n)
  else if n ≤ 30 then ("1mo", n)
  else if n ≤ 90 then ("3mo", n)
  else ("1y", n)

/-- The `"w"` arm of the `switch` in `parsePortfolioWindow`. -/
def wResolve (n : Int) : String × Int :=
  let td := n * 7
  if n ≤ 1 then ("5d", td)
  else if n ≤ 4 then ("1mo", td)
  else if n ≤ 12 then ("3mo", td)
  else if n ≤ 26 then ("6mo", td)
  else ("1y", td)

/-- The `"m"` arm of the `switch` in `parsePortfolioWindow`. -/
def mResolve (n : Int) : String × Int :=
  let td := n * 30
  if n ≤ 1 then ("1mo", td)
  else if n ≤ 3 then ("3mo", td)
  else if n ≤ 6 then ("6mo", td)
  else if n ≤ 12 then ("1y", td)
  else if n ≤ 24 then ("2y", td)
  else ("5y", td)

/-- The `"y"` arm of the `switch` in `parsePortfolioWindow`. -/
def yResolve (n : Int) : String × Int :=
  let td := n * 365
  if n ≤ 1 then ("1y", td)
  else if n ≤ 2 then ("2y", td)
  else if n ≤ 5 then ("5y", td)
  else if n ≤ 10 then ("10y", td)
  else ("max", td)

/-- Error for an unrecognised window unit. -/
inductive WindowErr where
  | invalidFormat (w : String)
deriving DecidableEq, Repr

/-- Embeds `parsePortfolioWindow`: empty input defaults to one year; the
token is lower-cased and dispatched on its unit suffix (`d`/`w`/`m`/`y`,
checked in that order); a failed numeric parse falls back to the arm's
default with no error; an unknown unit is an error. -/
def parsePfWindow (window : String) : Except WindowErr (String × Int) :=
  if window = "" then .ok ("1y", 365)
  else
    let w := toLowerStr window
    if endsWithChar w 'd' then
      match parseLeadingInt (dropLastStr w) with
      | none => .ok ("1mo", 30)
      | some n => .ok (dResolve n)
    else if endsWithChar w 'w' then
      match parseLeadingInt (dropLastStr w) with
      | none => .ok ("1mo", 21)
      | some n => .ok (wResolve n)
    else if endsWithChar w 'm' then
      match parseLeadingInt (dropLastStr w) with
      | none => .ok ("1y", 365)
      | some n => .ok (mResolve n)
    else if endsWithChar w 'y' then
      match parseLeadingInt (dropLastStr w) with
      | none => .ok ("1y", 365)
      | some n => .ok (yResolve n)
    else .error (.invalidFormat w)

/-- Modelled from the spec's words (for comparison with the code): the
smallest provider range code whose maximum span, in the day conventions
the resolver itself uses (30-day months, 365-day years), covers a
requested day-count. -/
def specSmallestRange (days : Int) : String :=
  if days ≤ 5 then "5d"
  else if days ≤ 30 then "1mo"
  else if days ≤ 90 then "3mo"
  else if days ≤ 180 then "6mo"
  else if days ≤ 365 then "1y"
  else if days ≤ 730 then "2y"
  else if days ≤ 1825 then "5y"
  else if days ≤ 3650 then "10y"
  else "max"

/-! ## Weighted-Portfolio Spec Parser (portfolio_parser.go) -/

/-- Go `unicode.IsSpace` restricted to the ASCII whitespace that
`strings.Fields`/`strings.TrimSpace` see in chat commands. -/
def isSpaceChar (c : Char) : Bool :=
  c == ' ' || c == '\t' || c == '\n' || c == '\r'

/-- `strings.TrimSpace` (ASCII model). -/
def trimSpaceStr (s : String) : String :=
  String.mk ((s.data.dropWhile isSpaceChar).reverse.dropWhile isSpaceChar |>.reverse)

/-- The accumulator loop of `strings.Fields`. -/
def fieldsGo : List Char → List Char → List String
  | [], acc => if acc.isEmpty then [] else [String.mk acc.reverse]
  | c :: rest, acc =>
    if isSpaceChar c then
      if acc.isEmpty then fieldsGo rest [] else String.mk acc.reverse :: fieldsGo rest []
    else fieldsGo rest (c :: acc)

/-- `strings.Fields`: split on runs of whitespace, dropping empty fields. -/
def fieldsOf (s : String) : List String := fieldsGo s.data []

/-- ASCII upper-casing of one character, modelling `strings.ToUpper`. -/
def upChar (c : Char) : Char :=
  if 'a' ≤ c ∧ c ≤ 'z' then Char.ofNat (c.toNat - 32) else c

/-- `strings.ToUpper` on a symbol token (ASCII model). -/
def toUpperStr (s : String) : String := String.mk (s.data.map upChar)

/-- `strings.HasPrefix s "/port"` followed by dropping those five bytes,
as in the command-prefix stripping of `ParseWeightedPortfolio`. -/
def stripPortCmd (s : String) : String :=
  match s.data with
  | '/' :: 'p' :: 'o' :: 'r' :: 't' :: rest => trimSpaceStr (String.mk rest)
  | _ => s

/-- Models `strconv.ParseFloat` on the decimal-literal subset the weight
grammar uses: optional sign, digits, optional fraction, no trailing
characters; the value is exact (float64 rounding is not modelled). -/
def parseDecimal (s : String) : Option ℚ :=
  let core : List Char → Option ℚ := fun cs =>
    let intPart := cs.takeWhile Char.isDigit
    let rest₁ := cs.drop intPart.length
    match rest₁ with
    | [] => if intPart.isEmpty then none else some (digitsVal intPart : ℚ)
    | '.' :: rest₂ =>
      let fracPart := rest₂.takeWhile Char.isDigit
      if rest₂.drop fracPart.length ≠ [] then none
      else if intPart.isEmpty ∧ fracPart.isEmpty then none
      else some ((digitsVal intPart : ℚ) +
        (digitsVal fracPart : ℚ) / ((10 : ℚ) ^ fracPart.length))
    | _ => none
  match s.data with
  | '-' :: rest => (core rest).map (fun q => -q)
  | '+' :: rest => core rest
  | cs => core cs

/-- Structured versions of the error messages `ParseWeightedPortfolio`
produces, in source order of the `return` sites. -/
inductive ParseErr where
  | insufficientArgs
  | oddTokens
  | emptySymbol (pos : ℕ)
  | invalidWeight (weightStr symbol : String)
  | longTooBig (w : ℚ) (symbol : String)
  | shortTooBig (w : ℚ) (symbol : String)
  | leverageExceeded (gross : ℚ)
  | duplicateSymbol (symbol : String)
deriving DecidableEq, Repr

/-- The symbol/weight pair loop of `ParseWeightedPortfolio`: walks the
non-window tokens two at a time, upper-casing symbols and validating each
weight is a parseable number in `[-1, 1]`.  `pos` is the 1-based pair
position used in the empty-symbol error. -/
def parsePairs (pos : ℕ) : List String → Except ParseErr (List String × List ℚ)
  | [] => .ok ([], [])
  | [_] => .ok ([], [])
  | symTok :: wTok :: rest =>
    let symbol := toUpperStr (trimSpaceStr symTok)
    let weightStr := trimSpaceStr wTok
    if symbol = "" then .error (.emptySymbol pos)
    else
      match parseDecimal weightStr with
      | none => .error (.invalidWeight weightStr symbol)
      | some w =>
        if 1 < w then .error (.longTooBig w symbol)
        else if w < -1 then .error (.shortTooBig w symbol)
        else do
          let (syms, ws) ← parsePairs (pos + 1) rest
          .ok (symbol :: syms, w :: ws)

/-- Total long plus total short exposure, exactly as the source sums it
(`totalLong + totalShort` with shorts negated). -/
def grossExposure (ws : List ℚ) : ℚ :=
  let totalLong := ws.foldl (fun acc w => if 0 < w then acc + w else acc) 0
  let totalShort := ws.foldl (fun acc w => if 0 < w then acc else acc + -w) 0
  totalLong + totalShort

/-- The duplicate scan of `ParseWeightedPortfolio`: first symbol already
seen, scanning left to right. -/
def findDup (seen : List String) : List String → Option String
  | [] => none
  | s :: rest => if s ∈ seen then some s else findDup (s :: seen) rest

/-- Embeds `ParseWeightedPortfolio` (portfolio_parser.go): strip the
`/port` prefix, split into fields, peel the trailing window token, parse
symbol/weight pairs, then check the 300% gross-exposure ceiling and
finally duplicate symbols. -/
def parseWeightedPf (input : String) :
    Except ParseErr (List String × List ℚ × String) :=
  let cleaned := stripPortCmd (trimSpaceStr input)
  let parts := fieldsOf cleaned
  if parts.length < 3 then .error .insufficientArgs
  else
    let window := parts.getLastI
    let body := parts.dropLast
    if body.length % 2 ≠ 0 then .error .oddTokens
    else do
      let (symbols, weights) ← parsePairs 1 body
      if 3 < grossExposure weights then
        .error (.leverageExceeded (grossExposure weights))
      else
        match findDup [] symbols with
        | some s => .error (.duplicateSymbol s)
        | none => .ok (symbols, weights, window)

/-! ## Maximum Drawdown (portfolio_calc.go, `calculateMaxDrawdown`)

The statistics calculator uses `math.Pow`/`math.Sqrt`, so this part of the
pipeline is embedded over the real numbers; NaN/Inf are not representable
here and the source's NaN/Inf guards are noted where they degenerate. -/

/-- The first strictly-positive element of a series.  The Go code writes
this as `peak := values[0]` followed, when `peak ≤ 0`, by a scan of
`values[1:]` for the first positive element — the same function. -/
noncomputable def firstPositive : List ℝ → Option ℝ
  | [] => none
  | v :: rest => if 0 < v then some v else firstPositive rest

/-- The main loop of `calculateMaxDrawdown`: raise the peak on a new high,
and when `peak > 0 ∧ value ≥ 0` record `(peak - value)/peak` if it beats
the maximum so far.  Note the loop ranges over the whole series, zeros
before the first positive value included. -/
noncomputable def ddLoop : List ℝ → ℝ → ℝ → ℝ
  | [], _, maxDD => maxDD
  | v :: rest, peak, maxDD =>
    let peak' := if peak < v then v else peak
    let maxDD' :=
      if 0 < peak' ∧ 0 ≤ v then
        let dd := (peak' - v) / peak'
        if maxDD < dd then dd else maxDD
      else maxDD
    ddLoop rest peak' maxDD'

/-- Embeds `calculateMaxDrawdown` (portfolio_calc.go). -/
noncomputable def calculateMaxDrawdown (values : List ℝ) : ℝ :=
  if values.length < 2 then 0
  else
    match firstPositive values with
    | none => 0
    | some peak0 => ddLoop values peak0 0

/-- Structural max-recursion over a tail of the series with a given
running peak: the largest `(peak - v)/peak` among the scanned values with
`peak > 0 ∧ v ≥ 0`, peaks updated along the way. -/
noncomputable def specScanDD (peak : ℝ) : List ℝ → ℝ
  | [] => 0
  | v :: rest =>
    let peak' := if peak < v then v else peak
    let dd := if 0 < peak' ∧ 0 ≤ v then (peak' - v) / peak' else 0
    max dd (specScanDD peak' rest)

/-- Modelled from the spec's words: the running peak starts from the first
strictly-positive value and drawdowns are computed only for values
subsequent to that first strictly-positive value; 0 when no positive value
exists. -/
noncomputable def specMaxDrawdown : List ℝ → ℝ
  | [] => 0
  | v :: rest => if 0 < v then specScanDD v rest else specMaxDrawdown rest

/-! ## Performance Statistics (portfolio_calc.go, `calculatePortfolioStats`) -/

/-- Time-series data of a backtest, as consumed by the statistics
calculator (Go `PortfolioData`; timestamps are irrelevant to the
statistics and omitted here). -/
structure PfDataR where
  Values : List ℝ
  Returns : List ℝ

/-- Go `PortfolioStats` (field `SharpeRatio` is abbreviated `Sharpe`). -/
structure PfStatsR where
  InitialValue : ℝ
  FinalValue : ℝ
  TotalReturn : ℝ
  AnnualReturn : ℝ
  Volatility : ℝ
  Sharpe : ℝ
  MaxDrawdown : ℝ
  NumDays : ℕ

/-- Structured versions of the error returns of `calculatePortfolioStats`.
In this real-number model the only reachable final-validation failure is
`invalidTotalReturn` (division by a zero initial value; in the float64
source that division yields NaN/Inf which the final validation rejects). -/
inductive StatsErr where
  | insufficientData
  | noReturns
  | tooFewReturns
  | invalidTotalReturn
deriving DecidableEq, Repr

/-- Mean daily return (`meanDailyReturn` accumulation loop). -/
noncomputable def meanReturn (rs : List ℝ) : ℝ := rs.sum / rs.length

/-- Sample variance of daily returns with the `N-1` denominator. -/
noncomputable def sampleVariance (rs : List ℝ) : ℝ :=
  ((rs.map fun r => (r - meanReturn rs) ^ 2).sum) / ((rs.length : ℝ) - 1)

/-- `dailyVolatility = math.Sqrt(variance)`. -/
noncomputable def dailyVol (rs : List ℝ) : ℝ := Real.sqrt (sampleVariance rs)

/-- `annualVolatility = dailyVolatility * math.Sqrt(252)`. -/
noncomputable def annualVol (rs : List ℝ) : ℝ := dailyVol rs * Real.sqrt 252

/-- Geometric annualisation: `math.Pow(final/initial, 1/yearsInPeriod) - 1`
under the guard `yearsInPeriod > 0 && finalValue > 0 && initialValue > 0`,
else 0. -/
noncomputable def annualReturnOf (initial final : ℝ) (numReturns : ℕ) : ℝ :=
  let yearsInPeriod : ℝ := (numReturns : ℝ) / 252
  if 0 < yearsInPeriod ∧ 0 < final ∧ 0 < initial then
    Real.rpow (final / initial) (1 / yearsInPeriod) - 1
  else 0

/-- `sharpeRatio = annualReturn / annualVolatility` when the volatility is
positive, else 0. -/
noncomputable def sharpeOf (initial final : ℝ) (rs : List ℝ) : ℝ :=
  if 0 < annualVol rs then annualReturnOf initial final rs.length / annualVol rs
  else 0

/-- Embeds `calculatePortfolioStats` (portfolio_calc.go).  The final
NaN/Inf validation of the float64 source is represented by its only
reachable case in exact arithmetic: a zero initial value, whose division
would have produced the NaN/Inf that `invalid total return` rejects. -/
noncomputable def calculatePfStats (pf : Option PfDataR) :
    Except StatsErr PfStatsR :=
  match pf with
  | none => .error .insufficientData
  | some p =>
    if p.Values.length < 2 then .error .insufficientData
    else
      let numDays := p.Values.length
      let initialValue := p.Values.headI
      let finalValue := p.Values.getLastI
      if p.Returns.length = 0 then .error .noReturns
      else if p.Returns.length < 2 then .error .tooFewReturns
      else
        let totalReturn := (finalValue - initialValue) / initialValue
        let annualReturn := annualReturnOf initialValue finalValue p.Returns.length
        let annualVolatility := annualVol p.Returns
        let sharpe := sharpeOf initialValue finalValue p.Returns
        let maxDrawdown := calculateMaxDrawdown p.Values
        if initialValue = 0 then .error .invalidTotalReturn
        else
          .ok { InitialValue := initialValue
                FinalValue := finalValue
                TotalReturn := totalReturn * 100
                AnnualReturn := annualReturn * 100
                Volatility := annualVolatility * 100
                Sharpe := sharpe
                MaxDrawdown := maxDrawdown * 100
                NumDays := numDays }

/-! ## Multi-Asset Aligner (portfolio command source, `alignTimestamps`) -/

/-- Go `AssetData` (portfolio_types.go): one symbol's fetched daily
series. -/
structure AssetData where
  Symbol : String
  Timestamps : List Int
  Prices : List ℚ
deriving DecidableEq, Repr

instance : Inhabited AssetData := ⟨⟨"", [], []⟩⟩

/-- Errors of `alignTimestamps`, in source order. -/
inductive AlignErr where
  | noAssets
  | emptyBase
  | noPriceFound (symbol : String) (ts : Int)
  | lengthCheckFailed (symbol : String) (got expected : ℕ)
deriving DecidableEq, Repr

/-- Go's `math.MaxInt` sentinel used to seed the fewest-points scan. -/
def goMaxInt : ℕ := 2 ^ 63 - 1

/-- The base-asset selection loop of `alignTimestamps`: scan the assets,
keeping the first one whose timestamp count is strictly below the best so
far (seeded with `math.MaxInt` and a zero-value `AssetData`). -/
def baseAssetOf (assets : List AssetData) : AssetData :=
  (assets.foldl
    (fun acc a =>
      if a.Timestamps.length < acc.2 then (a, a.Timestamps.length) else acc)
    ((default : AssetData), goMaxInt)).1

/-- Ascending insertion of one timestamp, modelling the in-place exchange
sort `alignTimestamps` performs on the copied base tim: that double loop
produces the ascending sort of the slice, which is this function. -/
def insertTs (x : Int) : List Int → List Int
  | [] => [x]
  | y :: ys => if x ≤ y then x :: y :: ys else y :: insertTs x ys

/-- The ascending sort of the unified timeline. -/
def sortTs (l : List Int) : List Int := l.foldr insertTs []

/-- The per-asset `priceMap`: timestamps mapped to their price when the
price is strictly positive (`asset.Prices[i] > 0`), later list entries
overwriting earlier ones exactly as repeated map writes do. -/
def lookupPrice (a : AssetData) (ts : Int) : Option ℚ :=
  (((a.Timestamps.zip a.Prices).filter fun p => decide (0 < p.2)).reverse.find?
    fun p => p.1 == ts).map Prod.snd

/-- Embeds `findClosestPrice`: the price at the latest timestamp at or
before the target (tracking `bestTimestamp`, seeded `-1`); if none exists,
the first price after the target in list order; else 0. -/
def findClosestPrice (a : AssetData) (targetTs : Int) : ℚ :=
  let best := (a.Timestamps.zip a.Prices).foldl
    (fun (acc : ℚ × Int) p =>
      if p.1 ≤ targetTs ∧ 0 < p.2 ∧ acc.2 < p.1 then (p.2, p.1) else acc)
    (0, -1)
  if best.2 = -1 then
    match (a.Timestamps.zip a.Prices).find? fun p =>
        decide (targetTs < p.1) && decide (0 < p.2) with
    | some p => p.2
    | none => best.1
  else best.1

/-- The forward-fill loop of `alignTimestamps` for one asset: exact
timestamp match uses the actual price, otherwise the last seen price, and
before any price has been seen the closest price (backward, then forward);
a fruitless closest-price search aborts with an error naming the asset and
timestamp. -/
def fillAsset (a : AssetData) : List Int → Bool → ℚ → Except AlignErr (List ℚ)
  | [], _, _ => .ok []
  | ts :: rest, hasFirst, lastKnown =>
    match lookupPrice a ts with
    | some price => do
      let filled ← fillAsset a rest true price
      .ok (price :: filled)
    | none =>
      if hasFirst then do
        let filled ← fillAsset a rest true lastKnown
        .ok (lastKnown :: filled)
      else
        let closest := findClosestPrice a ts
        if 0 < closest then do
          let filled ← fillAsset a rest true closest
          .ok (closest :: filled)
        else .error (.noPriceFound a.Symbol ts)

/-- The per-asset loop of `alignTimestamps`: forward-fill every asset onto
the unified timeline, asserting each filled vector matches its length. -/
def alignAll (unified : List Int) : List AssetData → Except AlignErr (List (List ℚ))
  | [] => .ok []
  | a :: rest => do
    let prices ← fillAsset a unified false 0
    if prices.length ≠ unified.length then
      .error (.lengthCheckFailed a.Symbol prices.length unified.length)
    else do
      let others ← alignAll unified rest
      .ok (prices :: others)

/-- Embeds `alignTimestamps`: pick the asset with the fewest timestamps as
the base timeline, sort it ascending, and forward-fill every asset onto
it.  `time.Unix` conversion is the identity on the modelled Unix
seconds. -/
def alignTimestamps (assets : List AssetData) :
    Except AlignErr (List Int × List (List ℚ)) :=
  if assets.length = 0 then .error .noAssets
  else
    let baseAsset := baseAssetOf assets
    if baseAsset.Timestamps.length = 0 then .error .emptyBase
    else
      let unified := sortTs baseAsset.Timestamps
      do
        let aligned ← alignAll unified assets
        .ok (unified, aligned)

/-- The fewest-points count among the input series, as the spec describes
the base timeline ("the timestamps of whichever input series has the
fewest points"). -/
def minSeriesLen (assets : List AssetData) : ℕ :=
  match assets.map (fun a => a.Timestamps.length) with
  | [] => 0
  | n :: ns => ns.foldl min n

/-! ## Float model for the Backtest Engine

`calculateWeightedPortfolio` branches on `math.IsNaN`/`math.IsInf` and on
sign comparisons, so its embedding uses an explicit value type: a finite
value is an exact rational (float64 rounding/overflow is not modelled),
plus NaN and the two infinities with IEEE comparison and arithmetic
rules (no signed zero). -/

inductive Fl where
  | num (q : ℚ)
  | nan
  | pinf
  | ninf
deriving DecidableEq, Repr

instance : Inhabited Fl := ⟨.num 0⟩

/-- `math.IsNaN`. -/
def Fl.isNaN : Fl → Bool
  | .nan => true
  | _ => false

/-- `math.IsInf(x, 0)`. -/
def Fl.isInf : Fl → Bool
  | .pinf => true
  | .ninf => true
  | _ => false

/-- A finite float64 value. -/
def Fl.isFinite : Fl → Bool
  | .num _ => true
  | _ => false

/-- IEEE `<`: any comparison with NaN is false. -/
def Fl.lt : Fl → Fl → Bool
  | .nan, _ => false
  | _, .nan => false
  | .num a, .num b => decide (a < b)
  | .ninf, .ninf => false
  | .ninf, _ => true
  | _, .ninf => false
  | .pinf, _ => false
  | _, .pinf => true

/-- IEEE `<=`: any comparison with NaN is false. -/
def Fl.le (x y : Fl) : Bool :=
  match x, y with
  | .nan, _ => false
  | _, .nan => false
  | _, _ => Fl.lt x y || decide (x = y)

/-- IEEE addition (exact on finite values). -/
def Fl.add : Fl → Fl → Fl
  | .nan, _ => .nan
  | _, .nan => .nan
  | .pinf, .ninf => .nan
  | .ninf, .pinf => .nan
  | .pinf, _ => .pinf
  | _, .pinf => .pinf
  | .ninf, _ => .ninf
  | _, .ninf => .ninf
  | .num a, .num b => .num (a + b)

/-- IEEE subtraction (exact on finite values). -/
def Fl.sub : Fl → Fl → Fl
  | .nan, _ => .nan
  | _, .nan => .nan
  | .pinf, .pinf => .nan
  | .ninf, .ninf => .nan
  | .pinf, _ => .pinf
  | _, .pinf => .ninf
  | .ninf, _ => .ninf
  | _, .ninf => .pinf
  | .num a, .num b => .num (a - b)

/-- IEEE multiplication (exact on finite values; `inf * 0 = NaN`). -/
def Fl.mul : Fl → Fl → Fl
  | .nan, _ => .nan
  | _, .nan => .nan
  | .pinf, .pinf => .pinf
  | .pinf, .ninf => .ninf
  | .ninf, .pinf => .ninf
  | .ninf, .ninf => .pinf
  | .pinf, .num b => if b = 0 then .nan else if 0 < b then .pinf else .ninf
  | .ninf, .num b => if b = 0 then .nan else if 0 < b then .ninf else .pinf
  | .num a, .pinf => if a = 0 then .nan else if 0 < a then .pinf else .ninf
  | .num a, .ninf => if a = 0 then .nan else if 0 < a then .ninf else .pinf
  | .num a, .num b => .num (a * b)

/-- IEEE division (exact on finite values; `x/0` is a signed infinity for
`x ≠ 0` and NaN for `0/0`, ignoring the sign of zero). -/
def Fl.div : Fl → Fl → Fl
  | .nan, _ => .nan
  | _, .nan => .nan
  | .pinf, .pinf => .nan
  | .pinf, .ninf => .nan
  | .ninf, .pinf => .nan
  | .ninf, .ninf => .nan
  | .pinf, .num b => if 0 ≤ b then .pinf else .ninf
  | .ninf, .num b => if 0 ≤ b then .ninf else .pinf
  | .num _, .pinf => .num 0
  | .num _, .ninf => .num 0
  | .num a, .num b =>
    if b = 0 then (if a = 0 then .nan else if 0 < a then .pinf else .ninf)
    else .num (a / b)

/-! ## Portfolio Backtest Engine (portfolio_calc.go) -/

/-- Go `WeightedAsset` (portfolio_types.go). -/
structure WeightedAsset where
  Symbol : String
  Weight : Fl
deriving DecidableEq, Repr

/-- Go `PortfolioConfig` (portfolio_types.go). -/
structure PfConfig where
  Assets : List WeightedAsset
  CashWeight : Fl
  InitialValue : Fl
deriving DecidableEq, Repr

/-- Go `PortfolioData` (portfolio_types.go); timestamps are modelled as
Unix seconds. -/
structure PfData where
  Timestamps : List Int
  Values : List Fl
  Returns : List Fl
deriving DecidableEq, Repr

/-- Structured versions of the error returns of
`calculateWeightedPortfolio`, in source order. -/
inductive CalcErr where
  | nilConfig
  | noTimestamps
  | configMismatch (numCfg numPrices : ℕ)
  | rowLengthMismatch (asset got expected : ℕ)
  | tooFewDays
  | invalidInitialPrice (asset : ℕ) (symbol : String) (p : Fl)
  | invalidInitialPriceNanInf (asset : ℕ) (symbol : String) (p : Fl)
  | invalidShare (asset : ℕ) (symbol : String) (s : Fl)
  | invalidPrice (asset : ℕ) (symbol : String) (day : ℕ) (p : Fl)
  | invalidPriceNanInf (asset : ℕ) (symbol : String) (day : ℕ) (p : Fl)
  | invalidValue (day : ℕ) (v : Fl)
  | invalidReturn (day : ℕ) (r : Fl)
deriving DecidableEq, Repr

/-- The row-length validation loop: the first asset whose price row does
not have `numDays` points, with its actual length. -/
def checkRows (numDays : ℕ) : ℕ → List (List Fl) → Option (ℕ × ℕ)
  | _, [] => none
  | i, row :: rest =>
    if row.length ≠ numDays then some (i, row.length)
    else checkRows numDays (i + 1) rest

/-- `netWeight`: the sum of the configured weights, accumulated left to
right as the Go loop does. -/
def netWeight (assets : List WeightedAsset) : Fl :=
  assets.foldl (fun acc a => acc.add a.Weight) (.num 0)

/-- The cash position `initialValue * (1.0 - netWeight)` exactly as
`calculateWeightedPortfolio` computes it (never reading
`config.CashWeight`). -/
def cashValueOf (initialValue : Fl) (assets : List WeightedAsset) : Fl :=
  initialValue.mul ((Fl.num 1).sub (netWeight assets))

/-- The share-calculation loop: for each asset, validate the initial price
(`> 0`, not NaN/Inf) and compute
`shares[i] = (initialValue * weight) / price[0]`, validating the result.
`i` is the running asset index used in error payloads. -/
def computeShares (initialValue : Fl) :
    ℕ → List (WeightedAsset × List Fl) → Except CalcErr (List Fl)
  | _, [] => .ok []
  | i, (a, prices) :: rest =>
    let p0 := prices.headI
    if p0.le (.num 0) then .error (.invalidInitialPrice i a.Symbol p0)
    else if p0.isNaN || p0.isInf then
      .error (.invalidInitialPriceNanInf i a.Symbol p0)
    else
      let s := (initialValue.mul a.Weight).div p0
      if s.isNaN || s.isInf then .error (.invalidShare i a.Symbol s)
      else do
        let srest ← computeShares initialValue (i + 1) rest
        .ok (s :: srest)

/-- The inner loop of the daily valuation: starting from the cash
position, validate each asset's price for the day (`< 0`, NaN/Inf) and
accumulate `shares * price`. -/
def dayValue (day : ℕ) :
    ℕ → Fl → List (Fl × String × List Fl) → Except CalcErr Fl
  | _, acc, [] => .ok acc
  | i, acc, (s, symbol, prices) :: rest =>
    let price := prices.getD day (Fl.num 0)
    if price.lt (.num 0) then .error (.invalidPrice i symbol day price)
    else if price.isNaN || price.isInf then
      .error (.invalidPriceNanInf i symbol day price)
    else dayValue day (i + 1) (acc.add (s.mul price)) rest

/-- The outer day loop of `calculateWeightedPortfolio` for days
`1 .. numDays-1`: compute the day's portfolio value, validate it, and
derive the daily return from the previous value (0 when the previous
value is not positive), validating it too.  `remaining` counts the days
still to process. -/
def calcDays (entries : List (Fl × String × List Fl)) (cashValue : Fl) :
    ℕ → ℕ → Fl → Except CalcErr (List Fl × List Fl)
  | 0, _, _ => .ok ([], [])
  | remaining + 1, day, prev => do
    let v ← dayValue day 0 cashValue entries
    if v.isNaN || v.isInf then .error (.invalidValue day v)
    else if (Fl.num 0).lt prev then
      let r := (v.sub prev).div prev
      if r.isNaN || r.isInf then .error (.invalidReturn day r)
      else do
        let (vs, rs) ← calcDays entries cashValue remaining (day + 1) v
        .ok (v :: vs, r :: rs)
    else do
      let (vs, rs) ← calcDays entries cashValue remaining (day + 1) v
      .ok (v :: vs, (Fl.num 0) :: rs)

/-- Embeds `calculateWeightedPortfolio` (portfolio_calc.go): validate the
configuration and price-matrix shape, compute the static cash position and
share counts at `t = 0`, then value the portfolio day by day.  The `nil`
config pointer is modelled by `Option`. -/
def calculateWeightedPf (timestamps : List Int)
    (assetPrices : List (List Fl)) (config : Option PfConfig) :
    Except CalcErr PfData :=
  match config with
  | none => .error .nilConfig
  | some cfg =>
    if timestamps.length = 0 then .error .noTimestamps
    else
      let numAssets := assetPrices.length
      let numDays := timestamps.length
      if cfg.Assets.length ≠ numAssets then
        .error (.configMismatch cfg.Assets.length numAssets)
      else
        match checkRows numDays 0 assetPrices with
        | some (i, n) => .error (.rowLengthMismatch i n numDays)
        | none =>
          if numDays < 2 then .error .tooFewDays
          else
            let initialValue := cfg.InitialValue
            let cashValue := cashValueOf initialValue cfg.Assets
            do
              let shares ← computeShares initialValue 0 (cfg.Assets.zip assetPrices)
              let entries := shares.zip ((cfg.Assets.map WeightedAsset.Symbol).zip assetPrices)
              let (vs, rs) ← calcDays entries cashValue (numDays - 1) 1 initialValue
              .ok ⟨timestamps, initialValue :: vs, rs⟩

/-- The claim's t = 0 holdings sum `Σ_i shares_i * price_i[0]`, accumulated
left to right. -/
def holdingsSum (shares : List Fl) (firstPrices : List Fl) : Fl :=
  (shares.zip firstPrices).foldl (fun acc p => acc.add (p.1.mul p.2)) (.num 0)

/-- The rational value of a finite float (0 for NaN/Inf), used to state
exact-arithmetic facts about validated values. -/
def Fl.toQ : Fl → ℚ
  | .num q => q
  | _ => 0

/-- The exact sum of the configured weights as rationals. -/
def wsumQ (assets : List WeightedAsset) : ℚ :=
  (assets.map fun a => a.Weight.toQ).sum

/-- A price the day loop of `calculateWeightedPortfolio` rejects:
negative, NaN or infinite. -/
def badPriceF (x : Fl) : Bool := x.lt (.num 0) || x.isNaN || x.isInf

/-- Whether an `Except` is a success, for stating non-vacuity facts. -/
def isOkE {ε α : Type} : Except ε α → Bool
  | .ok _ => true
  | .error _ => false

/-- Decidable equality of `Except` results, so concrete runs of the
embedded functions can be checked by `decide`. -/
def exceptDecEq {ε α : Type} [DecidableEq ε] [DecidableEq α] :
    DecidableEq (Except ε α) := fun x y =>
  match x, y with
  | .ok a, .ok b =>
    if h : a = b then .isTrue (by rw [h])
    else .isFalse (by intro he; injection he; contradiction)
  | .error a, .error b =>
    if h : a = b then .isTrue (by rw [h])
    else .isFalse (by intro he; injection he; contradiction)
  | .ok _, .error _ => .isFalse (by intro he; exact Except.noConfusion he)
  | .error _, .ok _ => .isFalse (by intro he; exact Except.noConfusion he)

instance {ε α : Type} [DecidableEq ε] [DecidableEq α] :
    DecidableEq (Except ε α) := exceptDecEq


/-! ## Theorems -/

theorem truncatePair_length_eq (ts : List Int) (cl : List ℚ) :
    (truncatePair ts cl).1.length = (truncatePair ts cl).2.length := by
  unfold truncatePair
  split
  · simp only [List.length_take]
    omega
  · next h =>
    rw [not_ne_iff] at h
    simpa using h

theorem truncatePair_eq_take (ts : List Int) (cl : List ℚ) :
    truncatePair ts cl =
      (ts.take (min ts.length cl.length), cl.take (min ts.length cl.length)) := by
  unfold truncatePair
  split
  · rfl
  · next h =>
    rw [not_ne_iff] at h
    rw [h, min_self, List.take_length, ← h, List.take_length]

/-- C10: cleaner length equalisation — `filterNonNegative` and `filterIQR`
always return a timestamp slice and a close slice of equal length, for all
inputs including mismatched ones, which are first truncated to the shorter
of the two lengths; hence every cleaner output satisfies the `PriceSeries`
invariant `len(timestamps) == len(closes)`. -/
theorem C10_cleaner_length_equalization (ts : List Int) (cl : List ℚ)
    (k : ℚ) (minPoints : ℕ) :
    (filterNonNegative ts cl).1.length = (filterNonNegative ts cl).2.length ∧
    (filterIQR ts cl k minPoints).1.length = (filterIQR ts cl k minPoints).2.length ∧
    truncatePair ts cl =
      (ts.take (min ts.length cl.length), cl.take (min ts.length cl.length)) := by
  refine ⟨?_, ?_, truncatePair_eq_take ts cl⟩
  · simp [filterNonNegative]
  · rcases e : truncatePair ts cl with ⟨ts2, cl2⟩
    have hlen2 : ts2.length = cl2.length := by
      have h := truncatePair_length_eq ts cl
      rw [e] at h
      exact h
    simp only [filterIQR, e]
    split
    · exact hlen2
    · split
      · exact hlen2
      · split
        · exact hlen2
        · simp

/-- C6: IQR filter safety — on an index-aligned series,
`filterIQR(ts, cl, 1.5, 20)` returns the input unchanged whenever the
series has fewer than 20 points, or `Q3 - Q1 ≤ 0`, or the filtered result
would retain fewer than 10 points. -/
theorem C6_iqr_filter_safety (ts : List Int) (cl : List ℚ)
    (hlen : ts.length = cl.length)
    (hcond : cl.length < 20 ∨ iqrOf cl ≤ 0 ∨
      (iqrSurvivors ts cl (3/2)).length < 10) :
    filterIQR ts cl (3/2) 20 = (ts, cl) := by
  have htc : truncatePair ts cl = (ts, cl) := by
    unfold truncatePair
    simp [hlen]
  simp only [filterIQR, htc]
  by_cases h1 : cl.length < 20
  · simp [h1]
  · simp only [h1, if_false]
    by_cases h2 : iqrOf cl ≤ 0
    · simp [h2]
    · simp only [h2, if_false]
      have h3 : (iqrSurvivors ts cl (3/2)).length < 10 := by
        rcases hcond with h | h | h
        · exact absurd h h1
        · exact absurd h h2
        · exact h
      simp [h3]

/-- C6 witness: a two-point series is returned unchanged. -/
theorem C6_iqr_filter_safety_witness :
    ([(5 : Int), 6].length = [(1 : ℚ), 2].length) ∧
    filterIQR [(5 : Int), 6] [(1 : ℚ), 2] (3/2) 20 = ([5, 6], [1, 2]) :=
  ⟨by decide, C6_iqr_filter_safety [5, 6] [1, 2] (by decide)
    (Or.inl (by decide))⟩

/-- C9: CashWeight noninterference — two configurations that differ only
in the `CashWeight` field produce identical results from the backtest
engine on every input, because the engine recomputes the cash position
from the weights and never reads `config.CashWeight`. -/
theorem C9_cashweight_noninterference (ts : List Int)
    (assetPrices : List (List Fl)) (assets : List WeightedAsset)
    (cw1 cw2 iv : Fl) :
    calculateWeightedPf ts assetPrices (some ⟨assets, cw1, iv⟩) =
      calculateWeightedPf ts assetPrices (some ⟨assets, cw2, iv⟩) := rfl

/-- C3 counterexample: the claim says the resolver picks the smallest
range code covering the requested day-count, but a 100-day request
resolves to `1y` although `6mo` (span 180 ≥ 100) is smaller. -/
theorem C3_window_resolver_counterexample :
    parsePfWindow "100d" = .ok ("1y", 100) ∧
    specSmallestRange 100 = "6mo" ∧ ("1y" : String) ≠ "6mo" :=
  ⟨rfl, rfl, by decide⟩

theorem endsWithChar_excl (s : String) (a b : Char) (hab : b ≠ a)
    (ha : endsWithChar s a = true) : endsWithChar s b = false := by
  unfold endsWithChar at ha ⊢
  cases h : s.data.getLast? with
  | none => rfl
  | some c =>
    rw [h] at ha
    have hc : c = a := by simpa using ha
    subst hc
    simpa using Ne.symm hab

/-- C3 (amended): on a failed numeric parse each unit arm — day, week,
month, year — returns its arm-specific safe default range with no error;
successfully parsed day and year tokens dispatch to the fixed threshold
tables `dResolve`/`yResolve`; the year arm does pick the smallest
covering range code for every count `n ≥ 1`; but the day arm maps counts
`≤ 5 / ≤ 30 / ≤ 90` to `5d`/`1mo`/`3mo` and every count above 90 to
`1y`, which is not minimal (e.g. 100 days, where `6mo` suffices) and for
counts above 365 not even covering (`1y` is never the smallest covering
code there). -/
theorem C3_window_resolver_amended :
    (∀ s : String, s ≠ "" →
      parseLeadingInt (dropLastStr (toLowerStr s)) = none →
      (endsWithChar (toLowerStr s) 'd' = true → parsePfWindow s = .ok ("1mo", 30)) ∧
      (endsWithChar (toLowerStr s) 'w' = true → parsePfWindow s = .ok ("1mo", 21)) ∧
      (endsWithChar (toLowerStr s) 'm' = true → parsePfWindow s = .ok ("1y", 365)) ∧
      (endsWithChar (toLowerStr s) 'y' = true → parsePfWindow s = .ok ("1y", 365))) ∧
    (∀ (s : String) (n : Int), s ≠ "" →
      (endsWithChar (toLowerStr s) 'd' = true →
        parseLeadingInt (dropLastStr (toLowerStr s)) = some n →
        parsePfWindow s = .ok (dResolve n)) ∧
      (endsWithChar (toLowerStr s) 'y' = true →
        parseLeadingInt (dropLastStr (toLowerStr s)) = some n →
        parsePfWindow s = .ok (yResolve n))) ∧
    (∀ n : Int,
      (n ≤ 5 → dResolve n = ("5d", n)) ∧
      (5 < n → n ≤ 30 → dResolve n = ("1mo", n)) ∧
      (30 < n → n ≤ 90 → dResolve n = ("3mo", n)) ∧
      (90 < n → dResolve n = ("1y", n))) ∧
    (∀ n : Int, 365 < n → specSmallestRange n ≠ "1y") ∧
    (∀ n : Int, 1 ≤ n → yResolve n = (specSmallestRange (n * 365), n * 365)) := by
  refine ⟨?_, ?_, ?_, ?_, ?_⟩
  · intro s hne hparse
    refine ⟨?_, ?_, ?_, ?_⟩
    · intro hd
      unfold parsePfWindow
      rw [if_neg hne, if_pos hd, hparse]
    · intro hw
      have hd := endsWithChar_excl (toLowerStr s) 'w' 'd' (by decide) hw
      unfold parsePfWindow
      rw [if_neg hne, if_neg (by simp [hd]), if_pos hw, hparse]
    · intro hm
      have hd := endsWithChar_excl (toLowerStr s) 'm' 'd' (by decide) hm
      have hw := endsWithChar_excl (toLowerStr s) 'm' 'w' (by decide) hm
      unfold parsePfWindow
      rw [if_neg hne, if_neg (by simp [hd]), if_neg (by simp [hw]),
        if_pos hm, hparse]
    · intro hy
      have hd := endsWithChar_excl (toLowerStr s) 'y' 'd' (by decide) hy
      have hw := endsWithChar_excl (toLowerStr s) 'y' 'w' (by decide) hy
      have hm := endsWithChar_excl (toLowerStr s) 'y' 'm' (by decide) hy
      unfold parsePfWindow
      rw [if_neg hne, if_neg (by simp [hd]), if_neg (by simp [hw]),
        if_neg (by simp [hm]), if_pos hy, hparse]
  · intro s n hne
    constructor
    · intro hd hparse
      unfold parsePfWindow
      rw [if_neg hne, if_pos hd, hparse]
    · intro hy hparse
      have hd := endsWithChar_excl (toLowerStr s) 'y' 'd' (by decide) hy
      have hw := endsWithChar_excl (toLowerStr s) 'y' 'w' (by decide) hy
      have hm := endsWithChar_excl (toLowerStr s) 'y' 'm' (by decide) hy
      unfold parsePfWindow
      rw [if_neg hne, if_neg (by simp [hd]), if_neg (by simp [hw]),
        if_neg (by simp [hm]), if_pos hy, hparse]
  · intro n
    refine ⟨?_, ?_, ?_, ?_⟩ <;>
      (first
        | (intro h1
           simp only [dResolve]
           split_ifs <;> first | rfl | omega)
        | (intro h1 h2
           simp only [dResolve]
           split_ifs <;> first | rfl | omega))
  · intro n hn
    simp only [specSmallestRange]
    split_ifs <;> first | omega | decide
  · intro n hn
    simp only [yResolve, specSmallestRange]
    rw [if_neg (by omega : ¬ n * 365 ≤ 5), if_neg (by omega : ¬ n * 365 ≤ 30),
      if_neg (by omega : ¬ n * 365 ≤ 90), if_neg (by omega : ¬ n * 365 ≤ 180)]
    by_cases h1 : n ≤ 1
    · rw [if_pos h1, if_pos (by omega : n * 365 ≤ 365)]
    · rw [if_neg h1, if_neg (by omega : ¬ n * 365 ≤ 365)]
      by_cases h2 : n ≤ 2
      · rw [if_pos h2, if_pos (by omega : n * 365 ≤ 730)]
      · rw [if_neg h2, if_neg (by omega : ¬ n * 365 ≤ 730)]
        by_cases h5 : n ≤ 5
        · rw [if_pos h5, if_pos (by omega : n * 365 ≤ 1825)]
        · rw [if_neg h5, if_neg (by omega : ¬ n * 365 ≤ 1825)]
          by_cases h10 : n ≤ 10
          · rw [if_pos h10, if_pos (by omega : n * 365 ≤ 3650)]
          · rw [if_neg h10, if_neg (by omega : ¬ n * 365 ≤ 3650)]

/-- C3 amended witness: concrete instantiations of every part — the four
fallback defaults, the day and year dispatches, the day threshold table
at 100 days, non-coverage at 400 days, and year-arm minimality. -/
theorem C3_window_resolver_amended_witness :
    parsePfWindow "xd" = .ok ("1mo", 30) ∧
    parsePfWindow "xw" = .ok ("1mo", 21) ∧
    parsePfWindow "xm" = .ok ("1y", 365) ∧
    parsePfWindow "xy" = .ok ("1y", 365) ∧
    parsePfWindow "100d" = .ok (dResolve 100) ∧
    parsePfWindow "3y" = .ok (yResolve 3) ∧
    dResolve 100 = ("1y", 100) ∧
    specSmallestRange 400 ≠ "1y" ∧
    yResolve 3 = (specSmallestRange (3 * 365), 3 * 365) :=
  ⟨(C3_window_resolver_amended.1 "xd" (by decide) (by decide)).1 (by decide),
   (C3_window_resolver_amended.1 "xw" (by decide) (by decide)).2.1 (by decide),
   (C3_window_resolver_amended.1 "xm" (by decide) (by decide)).2.2.1 (by decide),
   (C3_window_resolver_amended.1 "xy" (by decide) (by decide)).2.2.2 (by decide),
   (C3_window_resolver_amended.2.1 "100d" 100 (by decide)).1 (by decide) (by decide),
   (C3_window_resolver_amended.2.1 "3y" 3 (by decide)).2 (by decide) (by decide),
   (C3_window_resolver_amended.2.2.1 100).2.2.2 (by decide),
   C3_window_resolver_amended.2.2.2.1 400 (by decide),
   C3_window_resolver_amended.2.2.2.2 3 (by decide)⟩

theorem parsePairs_ne_dup : ∀ (l : List String) (pos : ℕ) (s : String),
    parsePairs pos l ≠ .error (.duplicateSymbol s)
  | [], _, _ => by simp [parsePairs]
  | [_], _, _ => by simp [parsePairs]
  | a :: b :: rest, pos, s => by
    have ih := parsePairs_ne_dup rest (pos + 1) s
    simp only [parsePairs]
    intro h
    split at h
    · simp at h
    · split at h
      · simp at h
      · split at h
        · simp at h
        · split at h
          · simp at h
          · cases hr : parsePairs (pos + 1) rest with
            | error e =>
              rw [hr] at h
              simp only [bind, Except.instMonad, Except.bind] at h
              injection h with he
              exact ih (by rw [hr, he])
            | ok pr =>
              rw [hr] at h
              simp only [bind, Except.instMonad, Except.bind] at h
              simp at h

/-- C4 counterexample: an input that violates both the duplicate-symbol
rule and the leverage ceiling is rejected with the leverage error, not the
duplicate-symbol error the claim predicts. -/
theorem C4_parser_order_counterexample :
    parseWeightedPf "SPY 1 SPY 1 SPY 1 SPY 0.5 1y" =
      .error (.leverageExceeded (7/2)) ∧
    findDup [] ["SPY", "SPY", "SPY", "SPY"] = some "SPY" ∧
    (3 : ℚ) < 7/2 := by
  refine ⟨?_, by decide, by norm_num⟩
  simp [parseWeightedPf, fieldsOf, fieldsGo, isSpaceChar, trimSpaceStr, stripPortCmd,
    parsePairs, parseDecimal, digitsVal, toUpperStr, upChar, List.takeWhile,
    bind, Except.bind, Except.instMonad]
  norm_num [grossExposure, findDup, List.foldl, List.getLastI]

/-- C4 (amended): `ParseWeightedPortfolio` checks its rules in the order
(a) enough tokens, (b) even pair count, (c) per-pair weight validity,
(e) gross exposure ≤ 3.0, and only then (d) duplicate symbols; hence a
duplicate-symbol error is only ever reported for token streams whose
parsed weights already satisfy the leverage ceiling. -/
theorem C4_parser_order_amended (input s : String)
    (h : parseWeightedPf input = .error (.duplicateSymbol s)) :
    ∃ syms ws,
      parsePairs 1 ((fieldsOf (stripPortCmd (trimSpaceStr input))).dropLast) =
        .ok (syms, ws) ∧
      grossExposure ws ≤ 3 ∧ findDup [] syms = some s := by
  simp only [parseWeightedPf] at h
  split at h
  · simp at h
  · split at h
    · simp at h
    · cases hp : parsePairs 1
          ((fieldsOf (stripPortCmd (trimSpaceStr input))).dropLast) with
      | error e =>
        rw [hp] at h
        simp only [bind, Except.instMonad, Except.bind] at h
        injection h with he
        exact absurd (by rw [hp, he]) (parsePairs_ne_dup _ 1 s)
      | ok pr =>
        obtain ⟨syms, ws⟩ := pr
        rw [hp] at h
        simp only [bind, Except.instMonad, Except.bind] at h
        split at h
        · simp at h
        · next hg =>
          split at h
          · next s' hfind =>
            injection h with he
            injection he with hs
            exact ⟨syms, ws, rfl, not_lt.mp hg, by rw [hfind, hs]⟩
          · simp at h

/-- C4 amended witness: a duplicate-symbol rejection whose weights satisfy
the leverage ceiling. -/
theorem C4_parser_order_amended_witness :
    ∃ syms ws,
      parsePairs 1 ((fieldsOf (stripPortCmd (trimSpaceStr "SPY 0.5 SPY 0.5 1y"))).dropLast) =
        .ok (syms, ws) ∧
      grossExposure ws ≤ 3 ∧ findDup [] syms = some "SPY" :=
  C4_parser_order_amended "SPY 0.5 SPY 0.5 1y" "SPY" (by
    simp [parseWeightedPf, fieldsOf, fieldsGo, isSpaceChar, trimSpaceStr, stripPortCmd,
      parsePairs, parseDecimal, digitsVal, toUpperStr, upChar, List.takeWhile,
      bind, Except.bind, Except.instMonad]
    norm_num [grossExposure, findDup, List.foldl, List.getLastI])

theorem specScanDD_nonneg (l : List ℝ) : ∀ peak, 0 ≤ specScanDD peak l := by
  induction l with
  | nil => intro peak; simp [specScanDD]
  | cons v rest ih =>
    intro peak
    simp only [specScanDD]
    exact le_trans (ih _) (le_max_right _ _)

theorem ddLoop_eq_specScan (l : List ℝ) : ∀ peak maxDD, 0 ≤ maxDD →
    ddLoop l peak maxDD = max maxDD (specScanDD peak l) := by
  induction l with
  | nil =>
    intro peak maxDD h
    simp [ddLoop, specScanDD, max_eq_left h]
  | cons v rest ih =>
    intro peak maxDD h
    simp only [ddLoop, specScanDD]
    by_cases hg : 0 < (if peak < v then v else peak) ∧ 0 ≤ v
    · have hpk : v ≤ (if peak < v then v else peak) := by
        split <;> [exact le_refl v; exact le_of_not_lt (by assumption)]
      have hdd : 0 ≤ ((if peak < v then v else peak) - v) / (if peak < v then v else peak) :=
        div_nonneg (sub_nonneg.mpr hpk) (le_of_lt hg.1)
      rw [if_pos hg, if_pos hg]
      have hmax : (if maxDD < ((if peak < v then v else peak) - v) / (if peak < v then v else peak)
            then ((if peak < v then v else peak) - v) / (if peak < v then v else peak)
            else maxDD) =
          max maxDD (((if peak < v then v else peak) - v) / (if peak < v then v else peak)) := by
        rcases lt_or_le maxDD (((if peak < v then v else peak) - v) / (if peak < v then v else peak)) with hc | hc
        · rw [if_pos hc, max_eq_right (le_of_lt hc)]
        · rw [if_neg (not_lt.mpr hc), max_eq_left hc]
      rw [hmax, ih _ _ (le_trans h (le_max_left _ _)), max_assoc]
    · rw [if_neg hg, if_neg hg]
      rw [ih _ _ h]
      rw [max_comm (0 : ℝ) _, max_eq_left (specScanDD_nonneg rest _)]

/-- C7 (amended): `calculateMaxDrawdown` tracks a running peak seeded with
the first strictly-positive value, but computes drawdowns over ALL values
of the series — including zero values occurring before that first
strictly-positive value — recording `(peak - value)/peak` whenever
`peak > 0` and `value ≥ 0`; the result is 0 when the series has fewer
than 2 points or contains no strictly-positive value. -/
theorem C7_maxdrawdown_amended (values : List ℝ) :
    calculateMaxDrawdown values =
      if values.length < 2 then 0
      else
        match firstPositive values with
        | none => 0
        | some p => specScanDD p values := by
  unfold calculateMaxDrawdown
  split
  · rfl
  · cases h : firstPositive values with
    | none => rfl
    | some p =>
      show ddLoop values p 0 = specScanDD p values
      rw [ddLoop_eq_specScan values p 0 le_rfl,
        max_eq_right (specScanDD_nonneg values p)]

/-- C7 counterexample: on `[0, 5]` the code reports a full drawdown of 1
(the zero at index 0 is measured against the later peak 5), while the
claim's algorithm — drawdowns only for values subsequent to the first
strictly-positive value — yields 0. -/
theorem C7_maxdrawdown_counterexample :
    calculateMaxDrawdown [0, 5] = 1 ∧ specMaxDrawdown [0, 5] = 0 := by
  constructor
  · unfold calculateMaxDrawdown
    rw [if_neg (by norm_num)]
    have h5 : firstPositive [(0 : ℝ), 5] = some 5 := by
      unfold firstPositive firstPositive
      norm_num
    rw [h5]
    unfold ddLoop ddLoop ddLoop
    norm_num
  · unfold specMaxDrawdown specMaxDrawdown specScanDD
    norm_num

theorem insertTs_length (x : Int) (l : List Int) :
    (insertTs x l).length = l.length + 1 := by
  induction l with
  | nil => rfl
  | cons y ys ih =>
    simp only [insertTs]
    split
    · simp
    · simp [ih]

theorem sortTs_length (l : List Int) : (sortTs l).length = l.length := by
  induction l with
  | nil => rfl
  | cons x xs ih =>
    simp only [sortTs, List.foldr_cons] at *
    rw [insertTs_length, ih]
    simp

theorem fillAsset_ok_length (a : AssetData) : ∀ (unified : List Int)
    (hasFirst : Bool) (lastKnown : ℚ) (prices : List ℚ),
    fillAsset a unified hasFirst lastKnown = .ok prices →
    prices.length = unified.length := by
  intro unified
  induction unified with
  | nil =>
    intro hasFirst lastKnown prices h
    simp only [fillAsset] at h
    injection h with h
    rw [← h]
    rfl
  | cons ts rest ih =>
    intro hasFirst lastKnown prices h
    simp only [fillAsset] at h
    split at h
    · cases hr : fillAsset a rest true _ with
      | error e => rw [hr] at h; exact Except.noConfusion h
      | ok filled =>
        rw [hr] at h
        simp only [bind, Except.bind, Except.instMonad] at h
        injection h with h
        rw [← h]
        simp [ih _ _ _ hr]
    · split at h
      · cases hr : fillAsset a rest true lastKnown with
        | error e => rw [hr] at h; exact Except.noConfusion h
        | ok filled =>
          rw [hr] at h
          simp only [bind, Except.bind, Except.instMonad] at h
          injection h with h
          rw [← h]
          simp [ih _ _ _ hr]
      · split at h
        · cases hr : fillAsset a rest true (findClosestPrice a ts) with
          | error e => rw [hr] at h; exact Except.noConfusion h
          | ok filled =>
            rw [hr] at h
            simp only [bind, Except.bind, Except.instMonad] at h
            injection h with h
            rw [← h]
            simp [ih _ _ _ hr]
        · exact Except.noConfusion h

theorem alignAll_ok (unified : List Int) : ∀ (assets : List AssetData)
    (out : List (List ℚ)), alignAll unified assets = .ok out →
    out.length = assets.length ∧ ∀ p ∈ out, p.length = unified.length := by
  intro assets
  induction assets with
  | nil =>
    intro out h
    simp only [alignAll] at h
    injection h with h
    rw [← h]
    simp
  | cons a rest ih =>
    intro out h
    simp only [alignAll] at h
    cases hf : fillAsset a unified false 0 with
    | error e => rw [hf] at h; exact Except.noConfusion h
    | ok prices =>
      rw [hf] at h
      simp only [bind, Except.bind, Except.instMonad] at h
      split at h
      · exact Except.noConfusion h
      · next hne =>
        cases ha : alignAll unified rest with
        | error e => rw [ha] at h; exact Except.noConfusion h
        | ok others =>
          rw [ha] at h
          simp only [bind, Except.bind, Except.instMonad] at h
          injection h with h
          obtain ⟨hlen, hall⟩ := ih others ha
          constructor
          · rw [← h]
            simp [hlen]
          · intro p hp
            rw [← h] at hp
            rcases List.mem_cons.mp hp with hph | hpt
            · rw [hph]
              exact fillAsset_ok_length a unified false 0 prices hf
            · exact hall p hpt

theorem baseFold_snd (assets : List AssetData) : ∀ (acc : AssetData × ℕ),
    (assets.foldl
      (fun acc a =>
        if a.Timestamps.length < acc.2 then (a, a.Timestamps.length) else acc)
      acc).2 =
    (assets.map fun a => a.Timestamps.length).foldl min acc.2 := by
  induction assets with
  | nil => intro acc; rfl
  | cons a rest ih =>
    intro acc
    simp only [List.foldl_cons, List.map_cons]
    rw [ih]
    congr 1
    split
    · next hlt => exact (min_eq_right (le_of_lt hlt)).symm
    · next hge => exact (min_eq_left (le_of_not_lt hge)).symm

theorem baseFold_fst (assets : List AssetData) : ∀ (acc : AssetData × ℕ),
    ((acc.1.Timestamps.length = acc.2 ∧ acc.2 < goMaxInt) ∨ acc = (default, goMaxInt)) →
    (((assets.foldl
      (fun acc a =>
        if a.Timestamps.length < acc.2 then (a, a.Timestamps.length) else acc)
      acc).1.Timestamps.length =
      (assets.foldl
        (fun acc a =>
          if a.Timestamps.length < acc.2 then (a, a.Timestamps.length) else acc)
        acc).2 ∧
      (assets.foldl
        (fun acc a =>
          if a.Timestamps.length < acc.2 then (a, a.Timestamps.length) else acc)
        acc).2 < goMaxInt) ∨
      (assets.foldl
        (fun acc a =>
          if a.Timestamps.length < acc.2 then (a, a.Timestamps.length) else acc)
        acc) = (default, goMaxInt)) := by
  induction assets with
  | nil => intro acc hacc; exact hacc
  | cons a rest ih =>
    intro acc hacc
    simp only [List.foldl_cons]
    apply ih
    split
    · next hlt =>
      left
      refine ⟨rfl, ?_⟩
      rcases hacc with ⟨_, hle⟩ | hdef
      · exact lt_trans hlt hle
      · rw [hdef] at hlt
        exact hlt
    · exact hacc

theorem foldl_min_le_init (l : List ℕ) : ∀ a, l.foldl min a ≤ a := by
  induction l with
  | nil => intro a; exact le_refl a
  | cons x xs ih =>
    intro a
    simp only [List.foldl_cons]
    exact le_trans (ih (min a x)) (min_le_left a x)

theorem foldl_min_le_mem (l : List ℕ) : ∀ a x, x ∈ l → l.foldl min a ≤ x := by
  induction l with
  | nil => intro a x hx; cases hx
  | cons y ys ih =>
    intro a x hx
    simp only [List.foldl_cons]
    rcases List.mem_cons.mp hx with h | h
    · exact le_trans (foldl_min_le_init ys (min a y)) (h ▸ min_le_right a y)
    · exact ih (min a y) x h

theorem foldl_min_comm (l : List ℕ) : ∀ a b, l.foldl min (min a b) = min a (l.foldl min b) := by
  induction l with
  | nil => intro a b; rfl
  | cons x xs ih =>
    intro a b
    simp only [List.foldl_cons]
    rw [min_assoc, ih]

theorem baseAsset_min_len (assets : List AssetData)
    (hne : assets ≠ [])
    (hbase : (baseAssetOf assets).Timestamps.length ≠ 0) :
    (baseAssetOf assets).Timestamps.length = minSeriesLen assets := by
  have hP := baseFold_fst assets ((default : AssetData), goMaxInt) (Or.inr rfl)
  rcases hP with ⟨heq, hlt⟩ | hdef
  · unfold baseAssetOf
    rw [heq, baseFold_snd]
    cases assets with
    | nil => exact absurd rfl hne
    | cons a rest =>
      simp only [List.map_cons, List.foldl_cons, minSeriesLen, List.map_cons]
      have hcomm := foldl_min_comm (rest.map fun a => a.Timestamps.length)
        goMaxInt a.Timestamps.length
      rw [hcomm]
      have hm : (rest.map fun a => a.Timestamps.length).foldl min
          a.Timestamps.length < goMaxInt := by
        by_contra hge
        rw [baseFold_snd] at hlt
        simp only [List.map_cons, List.foldl_cons] at hlt
        rw [hcomm, min_eq_left (le_of_not_lt hge)] at hlt
        exact lt_irrefl _ hlt
      exact min_eq_right (le_of_lt hm)
  · unfold baseAssetOf at hbase
    rw [hdef] at hbase
    simp [default] at hbase

/-- C8: alignment length invariant — whenever `alignTimestamps` succeeds
on a non-empty list of N asset series, it returns exactly N price vectors,
each of the same length as the unified timeline, which is the
ascending-sorted timestamp list of the input series with the fewest
points. -/
theorem C8_alignment_length_invariant (assets : List AssetData)
    (times : List Int) (prices : List (List ℚ))
    (h : alignTimestamps assets = .ok (times, prices)) :
    prices.length = assets.length ∧
    times.length = minSeriesLen assets ∧
    ∀ p ∈ prices, p.length = minSeriesLen assets := by
  simp only [alignTimestamps] at h
  split at h
  · exact Except.noConfusion h
  · next hne0 =>
    split at h
    · exact Except.noConfusion h
    · next hbne =>
      cases ha : alignAll (sortTs (baseAssetOf assets).Timestamps) assets with
      | error e => rw [ha] at h; exact Except.noConfusion h
      | ok aligned =>
        rw [ha] at h
        simp only [bind, Except.bind, Except.instMonad] at h
        injection h with h
        injection h with ht hp
        obtain ⟨hlen, hall⟩ := alignAll_ok _ assets aligned ha
        have hne : assets ≠ [] := by
          intro hnil
          rw [hnil] at hne0
          exact hne0 rfl
        have hmin : (baseAssetOf assets).Timestamps.length = minSeriesLen assets :=
          baseAsset_min_len assets hne hbne
        refine ⟨?_, ?_, ?_⟩
        · rw [← hp, hlen]
        · rw [← ht, sortTs_length, hmin]
        · intro p hmem
          rw [← hp] at hmem
          rw [hall p hmem, sortTs_length, hmin]

/-- C8 witness: a concrete two-asset alignment. -/
theorem C8_alignment_length_invariant_witness :
    ([[ (1 : ℚ), 2], [3, 4]].length =
      [(⟨"A", [0, 1], [1, 2]⟩ : AssetData), ⟨"B", [0, 1], [3, 4]⟩].length) ∧
    ([(0 : Int), 1].length =
      minSeriesLen [(⟨"A", [0, 1], [1, 2]⟩ : AssetData), ⟨"B", [0, 1], [3, 4]⟩]) ∧
    ∀ p ∈ [[ (1 : ℚ), 2], [3, 4]], p.length =
      minSeriesLen [(⟨"A", [0, 1], [1, 2]⟩ : AssetData), ⟨"B", [0, 1], [3, 4]⟩] :=
  C8_alignment_length_invariant _ [0, 1] [[1, 2], [3, 4]] (by decide)


theorem Fl.le_zero_false (p : Fl) (hle : p.le (.num 0) = false)
    (hnan : p.isNaN = false) (hinf : p.isInf = false) :
    ∃ q : ℚ, p = .num q ∧ 0 < q := by
  cases p with
  | num a =>
    refine ⟨a, rfl, ?_⟩
    simp only [Fl.le, Fl.lt, Bool.or_eq_false_iff, decide_eq_false_iff_not] at hle
    rcases hle with ⟨h1, h2⟩
    rcases lt_trichotomy a 0 with h | h | h
    · exact absurd h h1
    · exact absurd (by rw [h]) h2
    · exact h
  | nan => simp [Fl.isNaN] at hnan
  | pinf => simp [Fl.isInf] at hinf
  | ninf => simp [Fl.le, Fl.lt] at hle

theorem Fl.mul_finite (x y : Fl) (h : (x.mul y).isFinite = true) :
    (∃ a : ℚ, x = .num a) ∧ ∃ b : ℚ, y = .num b := by
  cases x <;> cases y <;>
    (try exact ⟨⟨_, rfl⟩, ⟨_, rfl⟩⟩) <;>
    (exfalso; simp only [Fl.mul] at h; (try split_ifs at h) <;>
      simp [Fl.isFinite] at h)

theorem Fl.div_num_finite (x : Fl) (q : ℚ) (h : (x.div (.num q)).isFinite = true) :
    ∃ a : ℚ, x = .num a := by
  cases x <;>
    (try exact ⟨_, rfl⟩) <;>
    (exfalso; simp only [Fl.div] at h; (try split_ifs at h) <;>
      simp [Fl.isFinite] at h)

theorem Fl.zero_add_left (x : Fl) : (Fl.num 0).add x = x := by
  cases x <;> simp [Fl.add]

theorem Fl.mul_one_right (x : Fl) : x.mul (.num 1) = x := by
  cases x <;> simp [Fl.mul]

theorem computeShares_ok (V : Fl) :
    ∀ (pairs : List (WeightedAsset × List Fl)) (i : ℕ) (shares : List Fl),
    computeShares V i pairs = .ok shares →
    shares = pairs.map (fun ap => (V.mul ap.1.Weight).div ap.2.headI) ∧
    shares.length = pairs.length ∧
    ∀ ap ∈ pairs, (∃ q : ℚ, ap.2.headI = .num q ∧ 0 < q) ∧
      ((V.mul ap.1.Weight).div ap.2.headI).isFinite = true := by
  intro pairs
  induction pairs with
  | nil =>
    intro i shares h
    simp only [computeShares] at h
    injection h with h
    subst h
    simp
  | cons ap rest ih =>
    obtain ⟨a, prices⟩ := ap
    intro i shares h
    simp only [computeShares] at h
    split at h
    · exact Except.noConfusion h
    · split at h
      · exact Except.noConfusion h
      · split at h
        · exact Except.noConfusion h
        · next hle hni hsf =>
          cases hr : computeShares V (i + 1) rest with
          | error e => rw [hr] at h; exact Except.noConfusion h
          | ok srest =>
            rw [hr] at h
            simp only [bind, Except.bind, Except.instMonad] at h
            injection h with h
            obtain ⟨hmap, hlen, hall⟩ := ih (i + 1) srest hr
            simp only [Bool.not_eq_true, Bool.or_eq_false_iff] at hle hni hsf
            have hp0 : ∃ q : ℚ, prices.headI = .num q ∧ 0 < q :=
              Fl.le_zero_false prices.headI hle hni.1 hni.2
            refine ⟨?_, ?_, ?_⟩
            · rw [← h, hmap]
              simp
            · rw [← h]
              simp [hlen]
            · intro bp hbp
              rcases List.mem_cons.mp hbp with hh | hh
              · subst hh
                refine ⟨hp0, ?_⟩
                cases hfl : ((V.mul a.Weight).div prices.headI) <;>
                  simp_all [Fl.isNaN, Fl.isInf, Fl.isFinite]
              · exact hall bp hh

theorem netWeight_num : ∀ (assets : List WeightedAsset) (q : ℚ),
    (∀ a ∈ assets, ∃ w : ℚ, a.Weight = .num w) →
    assets.foldl (fun acc a => acc.add a.Weight) (Fl.num q) =
      .num (q + (assets.map fun a => a.Weight.toQ).sum) := by
  intro assets
  induction assets with
  | nil => intro q _; simp
  | cons a rest ih =>
    intro q hfin
    obtain ⟨w, hw⟩ := hfin a (List.mem_cons_self a rest)
    simp only [List.foldl_cons, List.map_cons, List.sum_cons]
    rw [hw]
    have hstep : (Fl.num q).add (Fl.num w) = Fl.num (q + w) := rfl
    rw [hstep, ih (q + w) (fun b hb => hfin b (List.mem_cons_of_mem a hb))]
    congr 1
    simp only [Fl.toQ]
    ring

theorem calcPf_ok_parts (ts : List Int) (assetPrices : List (List Fl))
    (cfg : PfConfig) (pd : PfData)
    (h : calculateWeightedPf ts assetPrices (some cfg) = .ok pd) :
    cfg.Assets.length = assetPrices.length ∧ 2 ≤ ts.length ∧
    ∃ shares vs rs,
      computeShares cfg.InitialValue 0 (cfg.Assets.zip assetPrices) = .ok shares ∧
      pd = ⟨ts, cfg.InitialValue :: vs, rs⟩ := by
  simp only [calculateWeightedPf] at h
  split at h
  · exact Except.noConfusion h
  · next hts =>
    split at h
    · exact Except.noConfusion h
    · next hlen =>
      split at h
      · exact Except.noConfusion h
      · split at h
        · exact Except.noConfusion h
        · next hdays =>
          cases hs : computeShares cfg.InitialValue 0 (cfg.Assets.zip assetPrices) with
          | error e => rw [hs] at h; exact Except.noConfusion h
          | ok shares =>
            rw [hs] at h
            simp only [bind, Except.bind, Except.instMonad] at h
            cases hd : calcDays
                (shares.zip ((cfg.Assets.map WeightedAsset.Symbol).zip assetPrices))
                (cashValueOf cfg.InitialValue cfg.Assets)
                (ts.length - 1) 1 cfg.InitialValue with
            | error e => rw [hd] at h; exact Except.noConfusion h
            | ok vr =>
              rw [hd] at h
              simp only [bind, Except.bind, Except.instMonad] at h
              obtain ⟨vs, rs⟩ := vr
              injection h with h
              exact ⟨not_ne_iff.mp hlen, by omega, shares, vs, rs, rfl, h.symm⟩

theorem holdings_core (v : ℚ) : ∀ (pairs : List (WeightedAsset × List Fl)) (acc : ℚ),
    (∀ ap ∈ pairs, (∃ w : ℚ, ap.1.Weight = .num w) ∧
      ∃ q : ℚ, ap.2.headI = .num q ∧ q ≠ 0) →
    pairs.foldl (fun acc ap =>
        acc.add ((((Fl.num v).mul ap.1.Weight).div ap.2.headI).mul ap.2.headI))
      (Fl.num acc) =
      .num (acc + v * (pairs.map fun ap => ap.1.Weight.toQ).sum) := by
  intro pairs
  induction pairs with
  | nil => intro acc _; simp
  | cons ap rest ih =>
    intro acc hyp
    obtain ⟨⟨w, hw⟩, q, hq, hqne⟩ := hyp ap (List.mem_cons_self ap rest)
    simp only [List.foldl_cons, List.map_cons, List.sum_cons]
    rw [hw, hq]
    have hstep : (Fl.num acc).add
        ((((Fl.num v).mul (Fl.num w)).div (Fl.num q)).mul (Fl.num q)) =
        Fl.num (acc + v * w) := by
      simp only [Fl.mul, Fl.div, if_neg hqne]
      have : v * w / q * q = v * w := div_mul_cancel₀ (v * w) hqne
      rw [this]
      rfl
    rw [hstep, ih (acc + v * w) (fun bp hbp => hyp bp (List.mem_cons_of_mem ap hbp))]
    congr 1
    simp only [Fl.toQ]
    ring

theorem netWeight_eq_num (assets : List WeightedAsset)
    (hfin : ∀ a ∈ assets, ∃ w : ℚ, a.Weight = .num w) :
    netWeight assets = .num ((assets.map fun a => a.Weight.toQ).sum) := by
  unfold netWeight
  rw [netWeight_num assets 0 hfin]
  congr 1
  ring

/-- C1: share conservation at t = 0 — whenever the backtest engine
succeeds, the shares `(V * w_i)/p_i[0]` and cash `V * (1 - Σ w_i)` it
computes satisfy `Σ shares_i * p_i[0] + cash = V` exactly, and the
returned `Values[0]` equals the configured initial value, for all
portfolios including short and margin ones. -/
theorem C1_share_conservation (ts : List Int) (assetPrices : List (List Fl))
    (cfg : PfConfig) (pd : PfData)
    (h : calculateWeightedPf ts assetPrices (some cfg) = .ok pd) :
    pd.Values.headI = cfg.InitialValue ∧
    ∃ shares,
      computeShares cfg.InitialValue 0 (cfg.Assets.zip assetPrices) = .ok shares ∧
      (holdingsSum shares (assetPrices.map List.headI)).add
          (cashValueOf cfg.InitialValue cfg.Assets) = cfg.InitialValue := by
  obtain ⟨hlen, hts2, shares, vs, rs, hs, hpd⟩ := calcPf_ok_parts ts assetPrices cfg pd h
  subst hpd
  refine ⟨rfl, shares, hs, ?_⟩
  obtain ⟨hmap, hslen, hall⟩ := computeShares_ok cfg.InitialValue _ 0 shares hs
  by_cases hA : cfg.Assets = []
  · have hP : assetPrices = [] := by
      rw [hA] at hlen
      exact List.length_eq_zero.mp hlen.symm
    subst hP
    rw [hA] at hmap
    simp only [List.zip_nil_left, List.map_nil] at hmap
    subst hmap
    rw [hA]
    show (holdingsSum [] (List.map List.headI [])).add
      (cashValueOf cfg.InitialValue []) = cfg.InitialValue
    have hcash : cashValueOf cfg.InitialValue [] = cfg.InitialValue := by
      unfold cashValueOf netWeight
      simp only [List.foldl_nil]
      have h1 : (Fl.num 1).sub (Fl.num 0) = Fl.num 1 := by
        simp [Fl.sub]
      rw [h1, Fl.mul_one_right]
    rw [hcash]
    exact Fl.zero_add_left cfg.InitialValue
  · have hne : (cfg.Assets.zip assetPrices) ≠ [] := by
      intro hz
      have := @List.length_zip _ _ cfg.Assets assetPrices
      rw [hz, ← hlen] at this
      simp only [List.length_nil, min_self] at this
      exact hA (List.length_eq_zero.mp this.symm)
    obtain ⟨ap0, pairs0, hpair⟩ := List.exists_cons_of_ne_nil hne
    have hmem0 : ap0 ∈ cfg.Assets.zip assetPrices := by
      rw [hpair]
      exact List.mem_cons_self ap0 pairs0
    obtain ⟨⟨q0, hq0, hq0pos⟩, hfin0⟩ := hall ap0 hmem0
    have hVfin : ∃ v : ℚ, cfg.InitialValue = .num v := by
      rw [hq0] at hfin0
      obtain ⟨m, hm⟩ := Fl.div_num_finite _ q0 hfin0
      exact (Fl.mul_finite _ _ (by rw [hm]; rfl)).1
    obtain ⟨v, hv⟩ := hVfin
    have hWfin : ∀ ap ∈ cfg.Assets.zip assetPrices, ∃ w : ℚ, ap.1.Weight = .num w := by
      intro ap hap
      obtain ⟨⟨q, hq, _⟩, hfin⟩ := hall ap hap
      rw [hq] at hfin
      obtain ⟨m, hm⟩ := Fl.div_num_finite _ q hfin
      exact (Fl.mul_finite _ _ (by rw [hm]; rfl)).2
    have hfst : (cfg.Assets.zip assetPrices).map Prod.fst = cfg.Assets :=
      List.map_fst_zip _ _ (le_of_eq hlen)
    have hsnd : (cfg.Assets.zip assetPrices).map Prod.snd = assetPrices :=
      List.map_snd_zip _ _ (le_of_eq hlen.symm)
    have hWfin' : ∀ b ∈ cfg.Assets, ∃ w : ℚ, b.Weight = .num w := by
      intro b hb
      rw [← hfst] at hb
      obtain ⟨ap, hap, hfstap⟩ := List.mem_map.mp hb
      obtain ⟨w, hwap⟩ := hWfin ap hap
      exact ⟨w, by rw [← hfstap, hwap]⟩
    have hprices : assetPrices.map List.headI =
        (cfg.Assets.zip assetPrices).map (fun ap => ap.2.headI) := by
      conv_lhs => rw [← hsnd]
      rw [List.map_map]
      rfl
    rw [hmap, hprices, hv]
    unfold holdingsSum
    rw [List.zip_map', List.foldl_map]
    have hyps : ∀ ap ∈ cfg.Assets.zip assetPrices,
        (∃ w : ℚ, ap.1.Weight = .num w) ∧
        ∃ q : ℚ, ap.2.headI = .num q ∧ q ≠ 0 := by
      intro ap hap
      obtain ⟨⟨q, hq, hqpos⟩, _⟩ := hall ap hap
      exact ⟨hWfin ap hap, q, hq, ne_of_gt hqpos⟩
    rw [holdings_core v (cfg.Assets.zip assetPrices) 0 hyps]
    have hcash : cashValueOf (Fl.num v) cfg.Assets =
        .num (v * (1 - ((cfg.Assets.map fun b => b.Weight.toQ).sum))) := by
      unfold cashValueOf
      rw [netWeight_eq_num cfg.Assets hWfin']
      rfl
    rw [hcash]
    have hsums : ((cfg.Assets.zip assetPrices).map fun ap => ap.1.Weight.toQ).sum =
        ((cfg.Assets.map fun b => b.Weight.toQ).sum) := by
      conv_rhs => rw [← hfst]
      rw [List.map_map]
      rfl
    rw [hsums]
    show Fl.num (0 + v * (cfg.Assets.map fun b => b.Weight.toQ).sum +
      v * (1 - (cfg.Assets.map fun b => b.Weight.toQ).sum)) = Fl.num v
    congr 1
    ring

theorem calc_witness_eval : calculateWeightedPf [0, 1] [[Fl.num 10, Fl.num 11]]
    (some ⟨[⟨"SPY", Fl.num (1/2)⟩], Fl.num 0, Fl.num 100⟩) =
    .ok ⟨[0, 1], [Fl.num 100, Fl.num 105], [Fl.num (1/20)]⟩ := by
  have hsh : computeShares (Fl.num 100) 0
      ([(⟨"SPY", Fl.num (1/2)⟩ : WeightedAsset)].zip [[Fl.num 10, Fl.num 11]]) =
      .ok [Fl.num 5] := by
    rw [List.zip_cons_cons, List.zip_nil_right, computeShares, computeShares]
    norm_num [Fl.le, Fl.lt, Fl.isNaN, Fl.isInf, Fl.mul, Fl.div, List.headI,
      bind, Except.bind, Except.instMonad]
  have hdv : dayValue 1 0 (Fl.num 50) [(Fl.num 5, "SPY", [Fl.num 10, Fl.num 11])] =
      .ok (Fl.num 105) := by
    rw [dayValue]
    norm_num [Fl.lt, Fl.isNaN, Fl.isInf, Fl.mul, Fl.add, List.getD, dayValue]
  have hcash : cashValueOf (Fl.num 100) [⟨"SPY", Fl.num (1/2)⟩] = Fl.num 50 := by
    norm_num [cashValueOf, netWeight, Fl.mul, Fl.sub, Fl.add, List.foldl]
  have hcd : calcDays [(Fl.num 5, "SPY", [Fl.num 10, Fl.num 11])] (Fl.num 50)
      1 1 (Fl.num 100) = .ok ([Fl.num 105], [Fl.num (1/20)]) := by
    rw [calcDays, hdv]
    norm_num [Fl.lt, Fl.isNaN, Fl.isInf, Fl.sub, Fl.div, bind, Except.bind,
      Except.instMonad, calcDays]
  simp only [calculateWeightedPf, checkRows, List.length]
  norm_num
  rw [List.zip_cons_cons, List.zip_nil_right] at hsh
  rw [hsh]
  simp only [bind, Except.bind, Except.instMonad, List.map, List.zip_cons_cons,
    List.zip_nil_right]
  rw [hcash, hcd]

/-- C1 witness: a one-asset portfolio with weight 1/2 on a 10-dollar asset
and initial value 100. -/
theorem C1_share_conservation_witness :
    (⟨[0, 1], [Fl.num 100, Fl.num 105], [Fl.num (1/20)]⟩ : PfData).Values.headI =
      (⟨[⟨"SPY", Fl.num (1/2)⟩], Fl.num 0, Fl.num 100⟩ : PfConfig).InitialValue ∧
    ∃ shares,
      computeShares (⟨[⟨"SPY", Fl.num (1/2)⟩], Fl.num 0, Fl.num 100⟩ : PfConfig).InitialValue 0
          ((⟨[⟨"SPY", Fl.num (1/2)⟩], Fl.num 0, Fl.num 100⟩ : PfConfig).Assets.zip
            [[Fl.num 10, Fl.num 11]]) = .ok shares ∧
      (holdingsSum shares ([[Fl.num 10, Fl.num 11]].map List.headI)).add
          (cashValueOf (⟨[⟨"SPY", Fl.num (1/2)⟩], Fl.num 0, Fl.num 100⟩ : PfConfig).InitialValue
            (⟨[⟨"SPY", Fl.num (1/2)⟩], Fl.num 0, Fl.num 100⟩ : PfConfig).Assets) =
        (⟨[⟨"SPY", Fl.num (1/2)⟩], Fl.num 0, Fl.num 100⟩ : PfConfig).InitialValue :=
  C1_share_conservation [0, 1] [[Fl.num 10, Fl.num 11]]
    ⟨[⟨"SPY", Fl.num (1/2)⟩], Fl.num 0, Fl.num 100⟩
    ⟨[0, 1], [Fl.num 100, Fl.num 105], [Fl.num (1/20)]⟩ calc_witness_eval

theorem badPriceF_false_iff (x : Fl) :
    badPriceF x = false ↔ ∃ q : ℚ, x = .num q ∧ 0 ≤ q := by
  cases x with
  | num a =>
    simp only [badPriceF, Fl.lt, Fl.isNaN, Fl.isInf, Bool.or_false,
      Bool.or_eq_false_iff, decide_eq_false_iff_not, not_lt]
    constructor
    · intro h
      exact ⟨a, rfl, h⟩
    · rintro ⟨q, hq, hq0⟩
      injection hq with hq
      rw [hq]
      exact hq0
  | nan => simp [badPriceF, Fl.lt, Fl.isNaN]
  | pinf => simp [badPriceF, Fl.lt, Fl.isNaN, Fl.isInf]
  | ninf => simp [badPriceF, Fl.lt, Fl.isNaN, Fl.isInf]

theorem dayValue_good (day : ℕ) :
    ∀ (entries : List (Fl × String × List Fl)) (i : ℕ) (acc : ℚ),
    (∀ e ∈ entries, (∃ s : ℚ, e.1 = .num s) ∧
      badPriceF (e.2.2.getD day (Fl.num 0)) = false) →
    ∃ w : ℚ, dayValue day i (.num acc) entries = .ok (.num w) := by
  intro entries
  induction entries with
  | nil => intro i acc _; exact ⟨acc, rfl⟩
  | cons e rest ih =>
    intro i acc hyp
    obtain ⟨⟨s, hse⟩, hbad⟩ := hyp e (List.mem_cons_self e rest)
    obtain ⟨q, hq, hq0⟩ := (badPriceF_false_iff _).mp hbad
    obtain ⟨sv, sym, prices⟩ := e
    simp only at hse hq
    simp only [dayValue]
    rw [hq, hse]
    have hlt : (Fl.num q).lt (Fl.num 0) = false := by
      simp [Fl.lt, not_lt.mpr hq0]
    rw [hlt]
    simp only [Bool.false_eq_true, if_false, Fl.isNaN, Fl.isInf, Bool.or_self,
      Fl.mul, Fl.add]
    exact ih (i + 1) (acc + s * q)
      (fun e he => hyp e (List.mem_cons_of_mem _ he))

theorem dayValue_bad (day : ℕ) :
    ∀ (entries : List (Fl × String × List Fl)) (i : ℕ) (acc : Fl),
    (∃ j, j < entries.length ∧
      badPriceF ((entries.getD j (Fl.num 0, "", [])).2.2.getD day (Fl.num 0)) = true) →
    ∃ j p sym,
      (dayValue day i acc entries = .error (.invalidPrice (i + j) sym day p) ∨
       dayValue day i acc entries = .error (.invalidPriceNanInf (i + j) sym day p)) ∧
      j < entries.length ∧
      badPriceF ((entries.getD j (Fl.num 0, "", [])).2.2.getD day (Fl.num 0)) = true := by
  intro entries
  induction entries with
  | nil =>
    rintro i acc ⟨j, hj, _⟩
    simp at hj
  | cons e rest ih =>
    rintro i acc ⟨j, hj, hbad⟩
    obtain ⟨sv, sym, prices⟩ := e
    by_cases hb : badPriceF (prices.getD day (Fl.num 0)) = true
    · simp only [dayValue]
      by_cases hltc : (prices.getD day (Fl.num 0)).lt (Fl.num 0) = true
      · refine ⟨0, prices.getD day (Fl.num 0), sym, Or.inl ?_, Nat.succ_pos _, ?_⟩
        · rw [if_pos hltc, Nat.add_zero]
        · rw [List.getD_cons_zero]
          exact hb
      · have hni : ((prices.getD day (Fl.num 0)).isNaN ||
            (prices.getD day (Fl.num 0)).isInf) = true := by
          have hb2 := hb
          simp only [badPriceF, Bool.or_assoc] at hb2
          have hltf : (prices.getD day (Fl.num 0)).lt (Fl.num 0) = false :=
            Bool.not_eq_true _ ▸ eq_false_of_ne_true hltc
          rw [hltf, Bool.false_or] at hb2
          exact hb2
        refine ⟨0, prices.getD day (Fl.num 0), sym, Or.inr ?_, Nat.succ_pos _, ?_⟩
        · rw [if_neg hltc, if_pos hni, Nat.add_zero]
        · rw [List.getD_cons_zero]
          exact hb
    · have hj0 : j ≠ 0 := by
        intro h0
        rw [h0] at hbad
        rw [List.getD_cons_zero] at hbad
        exact hb hbad
      obtain ⟨j2, rfl⟩ := Nat.exists_eq_succ_of_ne_zero hj0
      rw [List.getD_cons_succ] at hbad
      rw [Bool.not_eq_true] at hb
      obtain ⟨q, hq, hq0⟩ := (badPriceF_false_iff _).mp hb
      simp only [dayValue]
      rw [hq]
      have hlt : (Fl.num q).lt (Fl.num 0) = false := by
        simp [Fl.lt, not_lt.mpr hq0]
      rw [hlt]
      simp only [Bool.false_eq_true, if_false, Fl.isNaN, Fl.isInf, Bool.or_self]
      obtain ⟨j3, p, sym3, herr, hj3, hbad3⟩ :=
        ih (i + 1) (acc.add (sv.mul (Fl.num q)))
          ⟨j2, by simpa using Nat.lt_of_succ_lt_succ hj, hbad⟩
      refine ⟨j3 + 1, p, sym3, ?_, by simpa using Nat.succ_lt_succ hj3, ?_⟩
      · have harith : i + (j3 + 1) = i + 1 + j3 := by omega
        rw [harith]
        exact herr
      · rw [List.getD_cons_succ]
        exact hbad3

theorem calcDays_good (entries : List (Fl × String × List Fl)) (cashQ : ℚ)
    (hsh : ∀ e ∈ entries, ∃ s : ℚ, e.1 = .num s) :
    ∀ (remaining day : ℕ) (prevQ : ℚ),
    (∀ t, day ≤ t → t < day + remaining →
      ∀ e ∈ entries, badPriceF (e.2.2.getD t (Fl.num 0)) = false) →
    ∃ vs rs, calcDays entries (.num cashQ) remaining day (.num prevQ) =
      .ok (vs, rs) := by
  intro remaining
  induction remaining with
  | zero => intro day prevQ _; exact ⟨[], [], rfl⟩
  | succ r ih =>
    intro day prevQ hgood
    obtain ⟨w, hw⟩ := dayValue_good day entries 0 cashQ
      (fun e he => ⟨hsh e he, hgood day le_rfl (by omega) e he⟩)
    simp only [calcDays]
    rw [hw]
    simp only [bind, Except.bind, Except.instMonad, Fl.isNaN, Fl.isInf,
      Bool.or_self, Bool.false_eq_true, if_false]
    obtain ⟨vs, rs, hrec⟩ := ih (day + 1) w
      (fun t ht1 ht2 e he => hgood t (by omega) (by omega) e he)
    by_cases hpos : (Fl.num 0).lt (Fl.num prevQ) = true
    · rw [if_pos hpos]
      have hpq : (0 : ℚ) < prevQ := by
        simpa [Fl.lt] using hpos
      have hr : ((Fl.num w).sub (Fl.num prevQ)).div (Fl.num prevQ) =
          .num ((w - prevQ) / prevQ) := by
        simp [Fl.sub, Fl.div, ne_of_gt hpq]
      rw [hr]
      simp only [Fl.isNaN, Fl.isInf, Bool.or_self, Bool.false_eq_true, if_false]
      rw [hrec]
      exact ⟨_, _, rfl⟩
    · rw [if_neg hpos]
      rw [hrec]
      exact ⟨_, _, rfl⟩

theorem calcDays_bad (entries : List (Fl × String × List Fl)) (cashQ : ℚ)
    (hsh : ∀ e ∈ entries, ∃ s : ℚ, e.1 = .num s) :
    ∀ (remaining day : ℕ) (prevQ : ℚ),
    (∃ j t, j < entries.length ∧ day ≤ t ∧ t < day + remaining ∧
      badPriceF ((entries.getD j (Fl.num 0, "", [])).2.2.getD t (Fl.num 0)) = true) →
    ∃ j t p sym,
      (calcDays entries (.num cashQ) remaining day (.num prevQ) =
          .error (.invalidPrice j sym t p) ∨
       calcDays entries (.num cashQ) remaining day (.num prevQ) =
          .error (.invalidPriceNanInf j sym t p)) ∧
      j < entries.length ∧ day ≤ t ∧ t < day + remaining ∧
      badPriceF ((entries.getD j (Fl.num 0, "", [])).2.2.getD t (Fl.num 0)) = true := by
  intro remaining
  induction remaining with
  | zero =>
    rintro day prevQ ⟨j, t, hj, ht1, ht2, hbad⟩
    omega
  | succ r ih =>
    rintro day prevQ ⟨j, t, hj, ht1, ht2, hbad⟩
    by_cases hcur : ∃ j2, j2 < entries.length ∧
        badPriceF ((entries.getD j2 (Fl.num 0, "", [])).2.2.getD day (Fl.num 0)) = true
    · obtain ⟨j3, p, sym, herr, hj3, hbad3⟩ :=
        dayValue_bad day entries 0 (.num cashQ) hcur
      rw [Nat.zero_add] at herr
      simp only [calcDays]
      rcases herr with herr | herr
      · refine ⟨j3, day, p, sym, Or.inl ?_, hj3, le_rfl, by omega, hbad3⟩
        rw [herr]
        rfl
      · refine ⟨j3, day, p, sym, Or.inr ?_, hj3, le_rfl, by omega, hbad3⟩
        rw [herr]
        rfl
    · push_neg at hcur
      have hgoodday : ∀ e ∈ entries, badPriceF (e.2.2.getD day (Fl.num 0)) = false := by
        intro e he
        obtain ⟨idx, hidx, heidx⟩ := List.mem_iff_getElem.mp he
        have := hcur idx hidx
        rw [List.getD_eq_getElem _ _ hidx, heidx] at this
        exact eq_false_of_ne_true this
      obtain ⟨w, hw⟩ := dayValue_good day entries 0 cashQ
        (fun e he => ⟨hsh e he, hgoodday e he⟩)
      simp only [calcDays]
      rw [hw]
      simp only [bind, Except.bind, Except.instMonad, Fl.isNaN, Fl.isInf,
        Bool.or_self, Bool.false_eq_true, if_false]
      have htday : t ≠ day := by
        intro heq
        rw [heq] at hbad
        exact hcur j hj hbad
      have hrec := ih (day + 1) w ⟨j, t, hj, by omega, by omega, hbad⟩
      obtain ⟨j4, t4, p4, sym4, herr4, hj4, ht4, ht4u, hbad4⟩ := hrec
      by_cases hpos : (Fl.num 0).lt (Fl.num prevQ) = true
      · rw [if_pos hpos]
        have hpq : (0 : ℚ) < prevQ := by
          simpa [Fl.lt] using hpos
        have hr : ((Fl.num w).sub (Fl.num prevQ)).div (Fl.num prevQ) =
            .num ((w - prevQ) / prevQ) := by
          simp [Fl.sub, Fl.div, ne_of_gt hpq]
        rw [hr]
        simp only [Fl.isNaN, Fl.isInf, Bool.or_self, Bool.false_eq_true, if_false]
        rcases herr4 with herr4 | herr4
        · refine ⟨j4, t4, p4, sym4, Or.inl ?_, hj4, by omega, by omega, hbad4⟩
          rw [herr4]
        · refine ⟨j4, t4, p4, sym4, Or.inr ?_, hj4, by omega, by omega, hbad4⟩
          rw [herr4]
      · rw [if_neg hpos]
        rcases herr4 with herr4 | herr4
        · refine ⟨j4, t4, p4, sym4, Or.inl ?_, hj4, by omega, by omega, hbad4⟩
          rw [herr4]
        · refine ⟨j4, t4, p4, sym4, Or.inr ?_, hj4, by omega, by omega, hbad4⟩
          rw [herr4]

theorem computeShares_good (V : ℚ) :
    ∀ (pairs : List (WeightedAsset × List Fl)) (i : ℕ),
    (∀ ap ∈ pairs, (∃ w : ℚ, ap.1.Weight = .num w) ∧
      ∃ q : ℚ, ap.2.headI = .num q ∧ 0 < q) →
    ∃ shares, computeShares (.num V) i pairs = .ok shares := by
  intro pairs
  induction pairs with
  | nil => intro i _; exact ⟨[], rfl⟩
  | cons ap rest ih =>
    intro i hyp
    obtain ⟨⟨w, hw⟩, q, hq, hq0⟩ := hyp ap (List.mem_cons_self ap rest)
    obtain ⟨a, prices⟩ := ap
    simp only at hw hq
    simp only [computeShares]
    rw [hq, hw]
    have hle : (Fl.num q).le (Fl.num 0) = false := by
      simp [Fl.le, Fl.lt, not_lt.mpr (le_of_lt hq0), ne_of_gt hq0]
    rw [hle]
    have hs : ((Fl.num V).mul (Fl.num w)).div (Fl.num q) = .num (V * w / q) := by
      simp [Fl.mul, Fl.div, ne_of_gt hq0]
    simp only [Bool.false_eq_true, if_false, Fl.isNaN, Fl.isInf, Bool.or_self, hs]
    obtain ⟨srest, hrest⟩ := ih (i + 1)
      (fun bp hbp => hyp bp (List.mem_cons_of_mem _ hbp))
    rw [hrest]
    exact ⟨_, rfl⟩

theorem checkRows_none (n : ℕ) : ∀ (rows : List (List Fl)) (i : ℕ),
    (∀ row ∈ rows, row.length = n) → checkRows n i rows = none := by
  intro rows
  induction rows with
  | nil => intro i _; rfl
  | cons row rest ih =>
    intro i hyp
    simp only [checkRows]
    rw [if_neg (by simp [hyp row (List.mem_cons_self row rest)])]
    exact ih (i + 1) (fun r hr => hyp r (List.mem_cons_of_mem _ hr))

theorem calcPf_unfold (ts : List Int) (assetPrices : List (List Fl))
    (cfg : PfConfig)
    (hts : ¬ts.length = 0)
    (hlen : cfg.Assets.length = assetPrices.length)
    (hrows : ∀ row ∈ assetPrices, row.length = ts.length)
    (hdays : ¬ts.length < 2) :
    calculateWeightedPf ts assetPrices (some cfg) =
      (computeShares cfg.InitialValue 0 (cfg.Assets.zip assetPrices)).bind
        (fun shares =>
          (calcDays (shares.zip ((cfg.Assets.map WeightedAsset.Symbol).zip assetPrices))
              (cashValueOf cfg.InitialValue cfg.Assets) (ts.length - 1) 1
              cfg.InitialValue).bind
            (fun vr => .ok ⟨ts, cfg.InitialValue :: vr.1, vr.2⟩)) := by
  simp only [calculateWeightedPf]
  rw [if_neg hts, if_neg (not_ne_iff.mpr hlen),
    checkRows_none ts.length assetPrices 0 hrows, if_neg hdays]
  rfl

theorem Fl.add_zero_right (x : Fl) : x.add (.num 0) = x := by
  cases x <;> simp [Fl.add]

theorem Fl.isFinite_exists (x : Fl) (h : x.isFinite = true) : ∃ q : ℚ, x = .num q := by
  cases x with
  | num q => exact ⟨q, rfl⟩
  | nan => simp [Fl.isFinite] at h
  | pinf => simp [Fl.isFinite] at h
  | ninf => simp [Fl.isFinite] at h

/-- C2: backtest price validation — under the shape and t = 0
preconditions, (i) if any asset has a negative/NaN/Inf price on a day
`t ≥ 1`, `calculateWeightedPortfolio` returns a price error naming an
asset/day whose price really is invalid (and no data); (ii) if every
price on days `t ≥ 1` is a finite non-negative number — zeros allowed —
the computation succeeds; and (iii) a price of exactly zero contributes
exactly zero to that day's value: the day loop adds `shares * 0 = 0` and
moves on. -/
theorem C2_price_validation (ts : List Int) (assetPrices : List (List Fl))
    (cfg : PfConfig)
    (hts : 2 ≤ ts.length)
    (hlen : cfg.Assets.length = assetPrices.length)
    (hrows : ∀ row ∈ assetPrices, row.length = ts.length)
    (hV : cfg.InitialValue.isFinite = true)
    (hW : ∀ a ∈ cfg.Assets, a.Weight.isFinite = true)
    (hP0 : ∀ row ∈ assetPrices, ∃ q : ℚ, row.headI = .num q ∧ 0 < q) :
    ((∃ i t, i < assetPrices.length ∧ 1 ≤ t ∧ t < ts.length ∧
        badPriceF ((assetPrices.getD i []).getD t (Fl.num 0)) = true) →
      ∃ i t sym p,
        (calculateWeightedPf ts assetPrices (some cfg) =
            .error (.invalidPrice i sym t p) ∨
         calculateWeightedPf ts assetPrices (some cfg) =
            .error (.invalidPriceNanInf i sym t p)) ∧
        i < assetPrices.length ∧ 1 ≤ t ∧ t < ts.length ∧
        badPriceF ((assetPrices.getD i []).getD t (Fl.num 0)) = true) ∧
    ((∀ row ∈ assetPrices, ∀ t, 1 ≤ t → t < ts.length →
        badPriceF (row.getD t (Fl.num 0)) = false) →
      ∃ pd, calculateWeightedPf ts assetPrices (some cfg) = .ok pd) ∧
    (∀ (day i : ℕ) (acc s : Fl) (sym : String) (prices : List Fl)
        (rest : List (Fl × String × List Fl)),
      prices.getD day (Fl.num 0) = .num 0 → s.isFinite = true →
      dayValue day i acc ((s, sym, prices) :: rest) =
        dayValue day (i + 1) acc rest) := by
  obtain ⟨v, hv⟩ := Fl.isFinite_exists cfg.InitialValue hV
  have hWfin : ∀ a ∈ cfg.Assets, ∃ w : ℚ, a.Weight = .num w :=
    fun a ha => Fl.isFinite_exists _ (hW a ha)
  have hpairs : ∀ ap ∈ cfg.Assets.zip assetPrices,
      (∃ w : ℚ, ap.1.Weight = .num w) ∧ ∃ q : ℚ, ap.2.headI = .num q ∧ 0 < q := by
    rintro ⟨a, row⟩ hap
    obtain ⟨h1, h2⟩ := List.of_mem_zip hap
    exact ⟨hWfin _ h1, hP0 _ h2⟩
  obtain ⟨shares, hsv⟩ := computeShares_good v (cfg.Assets.zip assetPrices) 0 hpairs
  have hs : computeShares cfg.InitialValue 0 (cfg.Assets.zip assetPrices) =
      .ok shares := by
    rw [hv]
    exact hsv
  obtain ⟨hmap, hslen, hall⟩ := computeShares_ok cfg.InitialValue _ 0 shares hs
  have hsharesFin : ∀ s ∈ shares, ∃ c : ℚ, s = .num c := by
    intro s hsm
    rw [hmap] at hsm
    obtain ⟨ap, hap, rfl⟩ := List.mem_map.mp hsm
    exact Fl.isFinite_exists _ (hall ap hap).2
  obtain ⟨cq, hcq⟩ : ∃ cq : ℚ, cashValueOf cfg.InitialValue cfg.Assets = .num cq := by
    refine ⟨v * (1 - (cfg.Assets.map fun a => a.Weight.toQ).sum), ?_⟩
    unfold cashValueOf
    rw [hv, netWeight_eq_num cfg.Assets hWfin]
    rfl
  set entries := shares.zip ((cfg.Assets.map WeightedAsset.Symbol).zip assetPrices)
    with hent
  have hentlen : entries.length = assetPrices.length := by
    rw [hent]
    simp only [List.length_zip, List.length_map, hslen, hlen]
    omega
  have hShF : ∀ e ∈ entries, ∃ c : ℚ, e.1 = .num c := by
    rintro ⟨sv, sym, row⟩ he
    rw [hent] at he
    obtain ⟨h1, _⟩ := List.of_mem_zip he
    exact hsharesFin _ h1
  have hRowM : ∀ e ∈ entries, e.2.2 ∈ assetPrices := by
    rintro ⟨sv, sym, row⟩ he
    rw [hent] at he
    obtain ⟨_, h2⟩ := List.of_mem_zip he
    obtain ⟨_, h3⟩ := List.of_mem_zip h2
    exact h3
  have hIdx : ∀ j, j < assetPrices.length →
      (entries.getD j (Fl.num 0, "", [])).2.2 = assetPrices.getD j [] := by
    intro j hj
    have hj1 : j < entries.length := by
      rw [hentlen]
      exact hj
    have hj2 : j < shares.length := by
      rw [hent] at hj1
      simp only [List.length_zip, List.length_map] at hj1
      omega
    have hj3 : j < cfg.Assets.length := by omega
    rw [List.getD_eq_getElem _ _ hj1, List.getD_eq_getElem _ _ hj]
    simp only [hent, List.getElem_zip, List.getElem_map]
  refine ⟨?_, ?_, ?_⟩
  · rintro ⟨i, t, hi, ht1, ht2, hbad⟩
    have hbadE : badPriceF ((entries.getD i (Fl.num 0, "", [])).2.2.getD t
        (Fl.num 0)) = true := by
      rw [hIdx i hi]
      exact hbad
    have hiE : i < entries.length := by
      rw [hentlen]
      exact hi
    obtain ⟨j4, t4, p4, sym4, herr, hj4, ht4a, ht4b, hbad4⟩ :=
      calcDays_bad entries cq hShF (ts.length - 1) 1 v
        ⟨i, t, hiE, ht1, by omega, hbadE⟩
    have hunfold := calcPf_unfold ts assetPrices cfg (by omega) hlen hrows (by omega)
    rw [hs] at hunfold
    simp only [Except.bind] at hunfold
    rw [← hent, hcq, hv] at hunfold
    have hj4' : j4 < assetPrices.length := by
      rw [hentlen] at hj4
      exact hj4
    rw [hIdx j4 hj4'] at hbad4
    rcases herr with herr | herr
    · rw [herr] at hunfold
      simp only [Except.bind] at hunfold
      exact ⟨j4, t4, sym4, p4, Or.inl hunfold, hj4', ht4a, by omega, hbad4⟩
    · rw [herr] at hunfold
      simp only [Except.bind] at hunfold
      exact ⟨j4, t4, sym4, p4, Or.inr hunfold, hj4', ht4a, by omega, hbad4⟩
  · intro hgood
    have hgoodE : ∀ t, 1 ≤ t → t < 1 + (ts.length - 1) →
        ∀ e ∈ entries, badPriceF (e.2.2.getD t (Fl.num 0)) = false := by
      intro t h1 h2 e he
      exact hgood _ (hRowM e he) t h1 (by omega)
    obtain ⟨vs, rs, hok⟩ := calcDays_good entries cq hShF (ts.length - 1) 1 v hgoodE
    have hunfold := calcPf_unfold ts assetPrices cfg (by omega) hlen hrows (by omega)
    rw [hs] at hunfold
    simp only [Except.bind] at hunfold
    rw [← hent, hcq, hv] at hunfold
    rw [hok] at hunfold
    simp only [Except.bind] at hunfold
    exact ⟨_, hunfold⟩
  · intro day i acc s sym prices rest hz hsf
    obtain ⟨c, hc⟩ := Fl.isFinite_exists s hsf
    simp only [dayValue]
    rw [hz, hc]
    have h1 : (Fl.num 0).lt (Fl.num 0) = false := by
      simp [Fl.lt]
    rw [h1]
    simp only [Bool.false_eq_true, if_false, Fl.isNaN, Fl.isInf, Bool.or_self]
    have h2 : (Fl.num c).mul (Fl.num 0) = Fl.num 0 := by
      simp [Fl.mul]
    rw [h2, Fl.add_zero_right]

/-- C2 witness: a single asset whose day-1 price is negative. -/
theorem C2_price_validation_witness :
    ∃ i t sym p,
      (calculateWeightedPf [0, 1] [[Fl.num 10, Fl.num (-1)]]
          (some ⟨[⟨"SPY", Fl.num (1/2)⟩], Fl.num 0, Fl.num 100⟩) =
          .error (.invalidPrice i sym t p) ∨
       calculateWeightedPf [0, 1] [[Fl.num 10, Fl.num (-1)]]
          (some ⟨[⟨"SPY", Fl.num (1/2)⟩], Fl.num 0, Fl.num 100⟩) =
          .error (.invalidPriceNanInf i sym t p)) ∧
      i < [[Fl.num 10, Fl.num (-1)]].length ∧ 1 ≤ t ∧ t < [(0 : Int), 1].length ∧
      badPriceF (([[Fl.num 10, Fl.num (-1)]].getD i []).getD t (Fl.num 0)) = true :=
  (C2_price_validation [0, 1] [[Fl.num 10, Fl.num (-1)]]
      ⟨[⟨"SPY", Fl.num (1/2)⟩], Fl.num 0, Fl.num 100⟩
      (by decide) (by decide)
      (by intro row hrow; simp only [List.mem_singleton] at hrow; rw [hrow]; rfl)
      (by decide)
      (by intro a ha; simp only [List.mem_singleton] at ha; rw [ha]; rfl)
      (by
        intro row hrow
        simp only [List.mem_singleton] at hrow
        rw [hrow]
        exact ⟨10, rfl, by norm_num⟩)).1
    ⟨0, 1, by decide, by decide, by decide, by
      show badPriceF (Fl.num (-1)) = true
      simp only [badPriceF, Fl.lt, Bool.or_eq_true, decide_eq_true_eq]
      norm_num⟩

theorem calcPfStats_ok (p : PfDataR) (s : PfStatsR)
    (h : calculatePfStats (some p) = .ok s) :
    2 ≤ p.Values.length ∧ 2 ≤ p.Returns.length ∧ p.Values.headI ≠ 0 ∧
    s.Sharpe = sharpeOf p.Values.headI p.Values.getLastI p.Returns := by
  simp only [calculatePfStats] at h
  split at h
  · exact Except.noConfusion h
  · split at h
    · exact Except.noConfusion h
    · split at h
      · exact Except.noConfusion h
      · split at h
        · exact Except.noConfusion h
        · injection h with h
          next h1 h2 h3 h4 =>
          refine ⟨by omega, by omega, h4, ?_⟩
          rw [← h]

theorem sampleVariance_pos (rs : List ℝ) (h2 : 2 ≤ rs.length)
    (a b : ℝ) (ha : a ∈ rs) (hb : b ∈ rs) (hab : a ≠ b) :
    0 < sampleVariance rs := by
  have hmean : ∃ c ∈ rs, c ≠ meanReturn rs := by
    by_contra hc
    push_neg at hc
    exact hab ((hc a ha).trans (hc b hb).symm)
  obtain ⟨c, hc, hcne⟩ := hmean
  have hterm : 0 < (c - meanReturn rs) ^ 2 :=
    lt_of_le_of_ne (sq_nonneg _)
      (Ne.symm (pow_ne_zero 2 (sub_ne_zero.mpr hcne)))
  have hsum : (c - meanReturn rs) ^ 2 ≤
      (rs.map fun r => (r - meanReturn rs) ^ 2).sum :=
    List.single_le_sum
      (fun x hx => by
        obtain ⟨r, _, rfl⟩ := List.mem_map.mp hx
        exact sq_nonneg _) _
      (List.mem_map_of_mem _ hc)
  have hden : 0 < (rs.length : ℝ) - 1 := by
    have hcast : (2 : ℝ) ≤ (rs.length : ℝ) := by
      exact_mod_cast h2
    linarith
  exact div_pos (lt_of_lt_of_le hterm hsum) hden

theorem annualVol_pos (rs : List ℝ) (hvar : 0 < sampleVariance rs) :
    0 < annualVol rs := by
  unfold annualVol dailyVol
  exact mul_pos (Real.sqrt_pos.mpr hvar) (Real.sqrt_pos.mpr (by norm_num))

theorem annualReturnOf_pos (initial final : ℝ) (n : ℕ)
    (h0 : 0 < initial) (hif : initial < final) (hn : 0 < n) :
    0 < annualReturnOf initial final n := by
  unfold annualReturnOf
  have hy : 0 < ((n : ℝ) / 252) := by positivity
  rw [if_pos ⟨hy, lt_trans h0 hif, h0⟩]
  have hbase : 1 < final / initial := (one_lt_div h0).mpr hif
  have hexp : 0 < 1 / ((n : ℝ) / 252) := by positivity
  have hrw : Real.rpow (final / initial) (1 / ((n : ℝ) / 252)) =
      (final / initial) ^ (1 / ((n : ℝ) / 252)) := rfl
  have hpow : 1 < Real.rpow (final / initial) (1 / ((n : ℝ) / 252)) := by
    rw [hrw, Real.one_lt_rpow_iff_of_pos (by positivity)]
    exact Or.inl ⟨hbase, hexp⟩
  linarith

/-- C5 (amended): if every daily return is strictly positive, the returns
are not all equal (so the sample volatility is nonzero), and the value
series really grows (`0 < Values[0] < Values[last]`, as holds when
`Returns` is the day-over-day return series of `Values`), then the
returned Sharpe ratio is strictly positive. -/
theorem C5_sharpe_sign_amended (pd : PfDataR) (a b : ℝ)
    (_hpos : ∀ r ∈ pd.Returns, 0 < r)
    (ha : a ∈ pd.Returns) (hb : b ∈ pd.Returns) (hab : a ≠ b)
    (h0 : 0 < pd.Values.headI) (hgrow : pd.Values.headI < pd.Values.getLastI) :
    ∀ s, calculatePfStats (some pd) = .ok s → 0 < s.Sharpe := by
  intro s h
  obtain ⟨hv2, hr2, hne0, hsh⟩ := calcPfStats_ok pd s h
  rw [hsh]
  unfold sharpeOf
  have hvar : 0 < sampleVariance pd.Returns :=
    sampleVariance_pos _ hr2 a b ha hb hab
  have hav : 0 < annualVol pd.Returns := annualVol_pos _ hvar
  rw [if_pos hav]
  exact div_pos (annualReturnOf_pos _ _ _ h0 hgrow (by omega)) hav

/-- C5 counterexample: Values `[100, 110, 121]` with their true
day-over-day returns `[1/10, 1/10]` — every daily return strictly
positive — yield a Sharpe ratio of exactly 0 (zero sample volatility),
not `> 0` as the claim states. -/
theorem C5_sharpe_sign_counterexample :
    Except.map PfStatsR.Sharpe
      (calculatePfStats (some ⟨[100, 110, 121], [1/10, 1/10]⟩)) = .ok 0 ∧
    (0 : ℝ) < 1/10 ∧
    ((110 : ℝ) - 100) / 100 = 1/10 ∧ ((121 : ℝ) - 110) / 110 = 1/10 := by
  refine ⟨?_, by norm_num, by norm_num, by norm_num⟩
  have hvol : annualVol [(1 : ℝ)/10, 1/10] = 0 := by
    unfold annualVol dailyVol sampleVariance meanReturn
    simp only [List.sum_cons, List.sum_nil, List.map_cons, List.map_nil,
      List.length_cons, List.length_nil]
    norm_num
  have hsharpe : ∀ i f : ℝ, sharpeOf i f [(1 : ℝ)/10, 1/10] = 0 := by
    intro i f
    unfold sharpeOf
    rw [hvol, if_neg (lt_irrefl 0)]
  simp only [calculatePfStats]
  rw [if_neg (by norm_num), if_neg (by norm_num), if_neg (by norm_num),
    if_neg (by norm_num [List.headI])]
  simp only [Except.map]
  rw [hsharpe]

/-- C5 amended witness: growing values `[100, 110, 132]` with distinct
positive returns `[1/10, 2/10]`; the statistics computation succeeds and
the amended theorem applies. -/
theorem C5_sharpe_sign_amended_witness :
    (∀ s, calculatePfStats (some ⟨[100, 110, 132], [1/10, 2/10]⟩) = .ok s →
      0 < s.Sharpe) ∧
    isOkE (calculatePfStats (some ⟨[100, 110, 132], [1/10, 2/10]⟩)) = true := by
  constructor
  · exact C5_sharpe_sign_amended ⟨[100, 110, 132], [1/10, 2/10]⟩ (1/10) (2/10)
      (by
        intro r hr
        simp only [List.mem_cons, List.not_mem_nil, or_false] at hr
        rcases hr with h | h <;> rw [h] <;> norm_num)
      (by simp) (by simp) (by norm_num)
      (by norm_num [List.headI])
      (by norm_num [List.headI, List.getLastI])
  · simp only [calculatePfStats]
    rw [if_neg (by norm_num), if_neg (by norm_num), if_neg (by norm_num),
      if_neg (by norm_num [List.headI])]
    rfl
